import Mathlib

/-!
Verification of the noProct core against its specification.

Shallow embedding of the relevant parts of the source:
* `src/core/optimizer.py` — `ResourceProfile`, `ResourceManager._adjust_adaptive_mode`,
  `CacheManager` (byte-budgeted LRU cache);
* `src/core/thread_manager.py` — `ThreadSafeCache` (LFU cache), `TaskScheduler`;
* `src/ml/models.py` — `MLQuestionDetector.predict` / `train_models`;
* `src/detection/detector.py` — `OptimizedQuestionDetector.detect` / `is_duplicate`;
* `src/detection/optimized_capture.py` — `OptimizedScreenCapture.capture_screen` /
  `_should_process`.

Python floats are modelled as `Rat`, byte sizes as `Nat`, running size totals as
`Int` (the source can drive `total_size` below zero).  Python dicts are modelled
as association lists in insertion order: assigning an existing key updates the
entry in place, assigning a fresh key appends, `del` removes; `min` over dict
keys returns the first key attaining the minimum, in iteration order.
-/

namespace NoProct

/-! ## Association-list helpers (Python `dict` in insertion order) -/

/-- Lookup of the first binding of `key` (Python `d[key]` / `key in d`). -/
def alookup {β : Type} : List (String × β) → String → Option β
  | [], _ => none
  | (k, v) :: l, key => if k = key then some v else alookup l key

/-- Remove the first binding of `key` (Python `del d[key]`). -/
def aerase {β : Type} : List (String × β) → String → List (String × β)
  | [], _ => []
  | (k, v) :: l, key => if k = key then l else (k, v) :: aerase l key

/-- Replace the value of the first binding of `key`, keeping its position
(Python `d[key] = v` when `key` is already present). -/
def aupdate {β : Type} : List (String × β) → String → β → List (String × β)
  | [], _, _ => []
  | (k, v) :: l, key, nv => if k = key then (k, nv) :: l else (k, v) :: aupdate l key nv

/-- First element of the list attaining the minimal measure, as Python's
built-in `min` over dict keys returns it. -/
def listMinBy {α β : Type} [LinearOrder β] (f : α → β) : List α → Option α
  | [] => none
  | x :: l =>
    match listMinBy f l with
    | none => some x
    | some m => if f x ≤ f m then some x else some m

/-! ## `CacheManager` (`src/core/optimizer.py`, LRU, byte budget) -/

/-- One cache entry: the stored value together with the bookkeeping the source
keeps in the parallel dicts `sizes` and `access_times`. -/
structure CMEntry (V : Type) where
  value : V
  size : Nat
  access : Rat
deriving Repr, DecidableEq

/-- State of `CacheManager`: `cache`/`sizes`/`access_times` fused into one
association list, plus the running byte total and the byte budget. -/
structure CacheMgr (V : Type) where
  entries : List (String × CMEntry V)
  total_size : Int
  max_size : Nat
deriving Repr, DecidableEq

/-- A `CacheManager` with no entries (`CacheManager.__init__`). -/
def cmEmpty (V : Type) (max : Nat) : CacheMgr V := ⟨[], 0, max⟩

/-- Sum of the recorded entry sizes. -/
def cmSumSizes {V : Type} (l : List (String × CMEntry V)) : Nat :=
  (l.map (fun p => p.2.size)).sum

/-- `CacheManager.get`: on a hit, refresh the access time and return the value;
on a miss return nothing.  `t` is the current `time.time()`. -/
def cmGet {V : Type} (c : CacheMgr V) (k : String) (t : Rat) :
    Option V × CacheMgr V :=
  match alookup c.entries k with
  | some e => (some e.value,
      { c with entries := aupdate c.entries k { e with access := t } })
  | none => (none, c)

/-- The key `_evict_lru` selects: the first key with the oldest access time. -/
def cmLruPick {V : Type} (c : CacheMgr V) : Option (String × CMEntry V) :=
  listMinBy (fun p => p.2.access) c.entries

/-- `CacheManager._evict_lru`: drop the least-recently-used entry and subtract
its recorded size (`sizes.get(lru_key, 0)`) from the running total. -/
def cmEvictLru {V : Type} (c : CacheMgr V) : CacheMgr V :=
  match cmLruPick c with
  | none => c
  | some m =>
    let sz : Nat := match alookup c.entries m.1 with | some e => e.size | none => 0
    { c with entries := aerase c.entries m.1, total_size := c.total_size - sz }

/-- The `while self.total_size + size_bytes > self.max_size and self.cache`
eviction loop of `CacheManager.put`, with explicit fuel; `put` supplies fuel
equal to the number of entries, which bounds the number of iterations. -/
def cmEvictLoop {V : Type} : Nat → Nat → CacheMgr V → CacheMgr V
  | 0, _, c => c
  | fuel + 1, sz, c =>
    if c.total_size + (sz : Int) > (c.max_size : Int) ∧ c.entries.isEmpty = false then
      cmEvictLoop fuel sz (cmEvictLru c)
    else c

/-- First phase of `CacheManager.put`: when the key is already cached,
subtract its recorded size from the running total (the entry itself stays in
place until eviction or overwrite — the source of the double-subtraction
drift when the eviction loop then evicts this very key). -/
def cmPutSub {V : Type} (c : CacheMgr V) (k : String) : CacheMgr V :=
  match alookup c.entries k with
  | some e => { c with total_size := c.total_size - (e.size : Int) }
  | none => c

/-- Last phase of `CacheManager.put`: store value, size and access time under
the key — in place when it is still cached, appended otherwise — and add the
new size to the running total. -/
def cmPutInsert {V : Type} (c : CacheMgr V) (k : String) (v : V) (sz : Nat)
    (t : Rat) : CacheMgr V :=
  match alookup c.entries k with
  | some _ =>
    { c with
       entries := aupdate c.entries k ⟨v, sz, t⟩
       total_size := c.total_size + (sz : Int) }
  | none =>
    { c with
       entries := c.entries ++ [(k, ⟨v, sz, t⟩)]
       total_size := c.total_size + (sz : Int) }

/-- `CacheManager.put`: subtract the size of an existing binding of `key`,
evict LRU entries while over budget, then insert the new entry. -/
def cmPut {V : Type} (c : CacheMgr V) (k : String) (v : V) (sz : Nat) (t : Rat) :
    CacheMgr V :=
  cmPutInsert (cmEvictLoop (cmPutSub c k).entries.length sz (cmPutSub c k)) k v sz t

/-- A client-visible operation on a `CacheManager`. -/
inductive CMOp (V : Type) where
  | get (k : String) (t : Rat)
  | put (k : String) (v : V) (sz : Nat) (t : Rat)

/-- Apply one operation. -/
def cmStep {V : Type} (c : CacheMgr V) : CMOp V → CacheMgr V
  | .get k t => (cmGet c k t).2
  | .put k v sz t => cmPut c k v sz t

/-- Apply a sequence of operations in order. -/
def cmRun {V : Type} (c : CacheMgr V) : List (CMOp V) → CacheMgr V
  | [] => c
  | op :: ops => cmRun (cmStep c op) ops

/-- An operation sequence in which every inserted item fits into the budget. -/
def cmValidOps {V : Type} (max : Nat) (ops : List (CMOp V)) : Prop :=
  ∀ op ∈ ops, match op with
    | .put _ _ sz _ => sz ≤ max
    | .get _ _ => True

/-! ## `ThreadSafeCache` (`src/core/thread_manager.py`, LFU, entry budget) -/

/-- One entry of `ThreadSafeCache`: value plus its `access_count` counter. -/
structure TSEntry (V : Type) where
  value : V
  count : Nat
deriving Repr, DecidableEq

/-- State of `ThreadSafeCache`: `cache`/`access_count` fused into one
association list, entry budget and hit/miss counters. -/
structure TSCache (V : Type) where
  entries : List (String × TSEntry V)
  max_size : Nat
  hit_count : Nat
  miss_count : Nat
deriving Repr, DecidableEq

/-- A `ThreadSafeCache` with no entries (`ThreadSafeCache.__init__`). -/
def tsEmpty (V : Type) (max : Nat) : TSCache V := ⟨[], max, 0, 0⟩

/-- `ThreadSafeCache.get`: on a hit bump the hit counter and the key's access
count; on a miss bump the miss counter. -/
def tsGet {V : Type} (c : TSCache V) (k : String) : Option V × TSCache V :=
  match alookup c.entries k with
  | some e => (some e.value,
      { c with hit_count := c.hit_count + 1,
               entries := aupdate c.entries k { e with count := e.count + 1 } })
  | none => (none, { c with miss_count := c.miss_count + 1 })

/-- The key `ThreadSafeCache._evict` selects: the first key with the lowest
access count. -/
def tsLfuPick {V : Type} (c : TSCache V) : Option (String × TSEntry V) :=
  listMinBy (fun p => p.2.count) c.entries

/-- `ThreadSafeCache._evict`: drop the least-frequently-used entry. -/
def tsEvict {V : Type} (c : TSCache V) : TSCache V :=
  match tsLfuPick c with
  | none => c
  | some m => { c with entries := aerase c.entries m.1 }

/-- `ThreadSafeCache.put`: evict once if at capacity and the key is new, then
store the value and unconditionally reset the key's access count to zero. -/
def tsPut {V : Type} (c : TSCache V) (k : String) (v : V) : TSCache V :=
  let c1 :=
    if c.entries.length ≥ c.max_size ∧ (alookup c.entries k).isNone then tsEvict c
    else c
  match alookup c1.entries k with
  | some _ => { c1 with entries := aupdate c1.entries k ⟨v, 0⟩ }
  | none => { c1 with entries := c1.entries ++ [(k, ⟨v, 0⟩)] }

/-! ## `TaskScheduler` (`src/core/thread_manager.py`) -/

/-- One element of `TaskScheduler.scheduled_tasks`: the tuple
`(priority, scheduled_time, task)` pushed by `schedule_task`. -/
structure SchedEntry where
  priority : Nat
  schedTime : Rat
  task : Nat
deriving Repr, DecidableEq

/-- Heap order of the scheduler's `PriorityQueue`: Python compares the
`(priority, scheduled_time, task)` tuples lexicographically, so priority is
compared before scheduled time. -/
def schedLe (e f : SchedEntry) : Bool :=
  decide (e.priority < f.priority) ||
    (decide (e.priority = f.priority) && decide (e.schedTime ≤ f.schedTime))

/-- The entry `scheduled_tasks.get` dequeues: a minimal one in the heap order.
(When two entries tie on both fields the heap's choice is unspecified; this
model picks the earliest-queued one.) -/
def schedPick : List SchedEntry → Option SchedEntry
  | [] => none
  | e :: l =>
    match schedPick l with
    | none => some e
    | some m => if schedLe e m then some e else some m

/-- `TaskScheduler.schedule_task`: enqueue
`(task.priority.value, time.time() + delay, task)`. -/
def scheduleTask (q : List SchedEntry) (priority task : Nat) (now delay : Rat) :
    List SchedEntry :=
  q ++ [⟨priority, now + delay, task⟩]

/-- One pass of `TaskScheduler._scheduler_loop` at wall-clock time `t`:
dequeue the minimal entry; if its scheduled time is still in the future, sleep
at most one second and re-queue it when it is still not ready; otherwise hand
it to the thread pool.  Returns the submitted entry with its submission time
(if any), the remaining queue, and the advanced clock. -/
def schedStep (q : List SchedEntry) (t : Rat) :
    Option (SchedEntry × Rat) × List SchedEntry × Rat :=
  match schedPick q with
  | none => (none, q, t)
  | some e =>
    if e.schedTime - t > 0 then
      if e.schedTime > t + min (e.schedTime - t) 1 then
        (none, (q.erase e) ++ [e], t + min (e.schedTime - t) 1)
      else (some (e, t + min (e.schedTime - t) 1), q.erase e, t + min (e.schedTime - t) 1)
    else (some (e, t), q.erase e, t)

/-! ## `ResourceProfile` and adaptive mode (`src/core/optimizer.py`) -/

/-- The `PowerMode` enum. -/
inductive PMode where
  | high
  | balanced
  | saver
  | adaptive
deriving Repr, DecidableEq

/-- The telemetry fields of `ResourceProfile` that mode resolution reads.
`battery` is `None` when `psutil` reports no battery. -/
structure RProfile where
  cpu : Rat
  memory : Rat
  battery : Option Rat
  plugged : Bool
deriving Repr, DecidableEq

/-- Python truthiness of `battery_percent and battery_percent < c`: `None` and
`0` are falsy, so a battery at exactly 0 percent fails the test. -/
def batteryLt (b : Option Rat) (c : Rat) : Bool :=
  match b with
  | none => false
  | some x => decide (x ≠ 0) && decide (x < c)

/-- `ResourceProfile.is_high_load`. -/
def isHighLoad (p : RProfile) : Bool :=
  decide (p.cpu > 60) || decide (p.memory > 70)

/-- `ResourceProfile.is_low_resource`. -/
def isLowResource (p : RProfile) : Bool :=
  decide (p.cpu > 80) || decide (p.memory > 85) || batteryLt p.battery 20

/-- `ResourceManager._adjust_adaptive_mode`: the concrete mode chosen for a
profile when the configured mode is `Adaptive`. -/
def adjustAdaptiveMode (p : RProfile) : PMode :=
  if batteryLt p.battery 30 && !p.plugged then .saver
  else if isHighLoad p then .saver
  else if isLowResource p then .balanced
  else .high

/-- Mode resolution as claim C4 words it: `PowerSaver` when a battery is
available (present), below 30 percent and not plugged in; else `PowerSaver`
under high load; else `Balanced` under low resources (battery availability
again meaning mere presence); else `HighPerformance`. -/
def claimResolveMode (p : RProfile) : PMode :=
  if (match p.battery with | some b => decide (b < 30) | none => false) && !p.plugged then
    .saver
  else if decide (p.cpu > 60) || decide (p.memory > 70) then .saver
  else if decide (p.cpu > 80) || decide (p.memory > 85) ||
      (match p.battery with | some b => decide (b < 20) | none => false) then .balanced
  else .high

/-- Mode resolution as the counterexample forces the claim to be amended:
"battery available" must be read as "battery present with nonzero charge",
which is what the source's truthiness test implements. -/
def claimResolveModeAmended (p : RProfile) : PMode :=
  if (match p.battery with | some b => decide (b ≠ 0) && decide (b < 30) | none => false)
      && !p.plugged then .saver
  else if decide (p.cpu > 60) || decide (p.memory > 70) then .saver
  else if decide (p.cpu > 80) || decide (p.memory > 85) ||
      (match p.battery with | some b => decide (b ≠ 0) && decide (b < 20) | none => false) then
    .balanced
  else .high

/-! ## `MLQuestionDetector.predict` (`src/ml/models.py`) -/

/-- The per-call outputs of the five scorers, for one fixed input.
`rf`/`gb`/`mlp` are `none` when the corresponding sklearn classifier is
untrained (`predict_with_ml` then skips it); `nnModel`/`cnnModel` are `none`
when the torch model is absent, in which case `predict_with_nn` /
`predict_with_cnn` return the constant `0.5` instead of skipping. -/
structure ScorerOutputs where
  rf : Option Rat
  gb : Option Rat
  mlp : Option Rat
  nnModel : Option Rat
  cnnModel : Option Rat
deriving Repr, DecidableEq

/-- The contribution of one optional sklearn scorer to the predictions dict:
its score when the classifier object is truthy (trained), nothing otherwise. -/
def optPred (name : String) (o : Option Rat) : List (String × Rat) :=
  match o with
  | some p => [(name, p)]
  | none => []

/-- `MLQuestionDetector.predict_with_ml`: the dict of scores of the trained
sklearn classifiers, in insertion order rf, gb, mlp. -/
def predictWithMl (s : ScorerOutputs) : List (String × Rat) :=
  optPred "rf" s.rf ++ optPred "gb" s.gb ++ optPred "mlp" s.mlp

/-- `MLQuestionDetector.predict_with_nn` (and `predict_with_cnn`): the model's
probability when present, otherwise the default `0.5`. -/
def predictWithNet (o : Option Rat) : Rat :=
  match o with
  | none => 1 / 2
  | some p => p

/-- The `all_predictions` dict built by `MLQuestionDetector.predict`. -/
def allPredictions (s : ScorerOutputs) : List (String × Rat) :=
  predictWithMl s ++
    [("nn", predictWithNet s.nnModel), ("cnn", predictWithNet s.cnnModel)]

/-- `self.ensemble_weights.get(model_name, 0.1)`. -/
def ensembleWeight (name : String) : Rat :=
  if name = "rf" then 2 / 10
  else if name = "gb" then 2 / 10
  else if name = "mlp" then 2 / 10
  else if name = "nn" then 25 / 100
  else if name = "cnn" then 15 / 100
  else 1 / 10

/-- The accumulated `ensemble_score` before normalisation. -/
def weightedScoreSum (l : List (String × Rat)) : Rat :=
  (l.map (fun p => p.2 * ensembleWeight p.1)).sum

/-- The accumulated `total_weight`. -/
def totalWeight (l : List (String × Rat)) : Rat :=
  (l.map (fun p => ensembleWeight p.1)).sum

/-- The combined confidence computed by `MLQuestionDetector.predict`. -/
def ensembleScore (s : ScorerOutputs) : Rat :=
  let preds := allPredictions s
  let es := weightedScoreSum preds
  let tw := totalWeight preds
  if tw > 0 then es / tw else es

/-- `is_question = ensemble_score > 0.5`. -/
def ensembleIsQuestion (s : ScorerOutputs) : Bool :=
  decide (ensembleScore s > 1 / 2)

/-! ## `MLQuestionDetector.train_models` (`src/ml/models.py`) -/

/-- The mutable model state that `predict` reads: the scaler, the three sklearn
classifiers (`none` while untrained) and the ensemble weight table, each
represented by an opaque token. -/
structure MLModels where
  scaler : Nat
  rf : Option Nat
  gb : Option Nat
  mlp : Option Nat
  weights : Nat
deriving Repr, DecidableEq

/-- Outcomes of the opaque fitting calls inside `train_models`: the token of a
freshly constructed (unfitted) classifier, and the token produced by fitting it
on a dataset. -/
structure FitEnv where
  scalerFit : List Nat → Nat
  rfInit : Nat
  rfFit : List Nat → Nat
  gbInit : Nat
  gbFit : List Nat → Nat
  mlpInit : Nat
  mlpFit : List Nat → Nat

/-- The sequence of in-place mutations `train_models` performs on the live
state, in source order: `self.scaler.fit`, then assignment and fit of
`self.rf_classifier`, `self.gb_classifier` and `self.mlp_classifier`.  A
classifier is already replaced by its unfitted successor when its `fit` call
starts, exactly as in the source. -/
def trainSteps (env : FitEnv) (d : List Nat) : List (MLModels → MLModels) :=
  [fun s => { s with scaler := env.scalerFit d },
   fun s => { s with rf := some env.rfInit },
   fun s => { s with rf := some (env.rfFit d) },
   fun s => { s with gb := some env.gbInit },
   fun s => { s with gb := some (env.gbFit d) },
   fun s => { s with mlp := some env.mlpInit },
   fun s => { s with mlp := some (env.mlpFit d) }]

/-- Apply the first `k` mutation steps. -/
def applySteps (env : FitEnv) (d : List Nat) (k : Nat) (s : MLModels) : MLModels :=
  ((trainSteps env d).take k).foldl (fun st f => f st) s

/-- `MLQuestionDetector.train_models` with exception injection.  With fewer
than 100 samples the pass returns without touching anything.  Otherwise the
mutation steps run in order; `fail = some k` with `k < 7` means the `k`-th
step raises, so the run ends in `Except.error` carrying the partially mutated
state that a subsequent `predict()` call will read — the source has no
try/except and no rollback around these mutations. -/
def trainModels (env : FitEnv) (d : List Nat) (fail : Option Nat) (s : MLModels) :
    Except MLModels MLModels :=
  if d.length < 100 then .ok s
  else
    match fail with
    | some k =>
      if k < 7 then .error (applySteps env d k s)
      else .ok (applySteps env d 7 s)
    | none => .ok (applySteps env d 7 s)

/-! ## `OptimizedQuestionDetector` (`src/detection/detector.py`) -/

/-- The `Detection` dataclass.  `question_text` is kept as a character list,
`timestamp` as seconds; `region` is an opaque optional token. -/
structure Detection where
  question_text : List Char
  options : List String
  confidence : Rat
  region : Option Nat
  timestamp : Rat
  detection_method : String
  screenshot_hash : String
deriving Repr, DecidableEq

/-- Detector state: the TTL-stamped detection cache keyed by screenshot hash,
and the bounded detection history. -/
structure DetectorState where
  detection_cache : List (String × (Rat × Detection))
  cache_ttl : Rat
  detection_history : List Detection
  max_history : Nat
deriving Repr, DecidableEq

/-- `OptimizedQuestionDetector._check_cache`: a fresh-enough entry is a hit;
an expired entry is deleted and treated as a miss. -/
def checkCache (s : DetectorState) (h : String) (now : Rat) :
    Option Detection × DetectorState :=
  match alookup s.detection_cache h with
  | some td =>
    if now - td.1 < s.cache_ttl then (some td.2, s)
    else (none, { s with detection_cache := aerase s.detection_cache h })
  | none => (none, s)

/-- `OptimizedQuestionDetector._update_cache`: store the detection under the
hash, then purge every entry older than the TTL. -/
def updateCache (s : DetectorState) (h : String) (d : Detection) (now : Rat) :
    DetectorState :=
  let dc :=
    match alookup s.detection_cache h with
    | some _ => aupdate s.detection_cache h (now, d)
    | none => s.detection_cache ++ [(h, (now, d))]
  { s with detection_cache := dc.filter (fun p => !decide (now - p.2.1 > s.cache_ttl)) }

/-- `OptimizedQuestionDetector._add_to_history`: append, dropping the oldest
entry beyond `max_history`. -/
def addToHistory (s : DetectorState) (d : Detection) : DetectorState :=
  let hist := s.detection_history ++ [d]
  { s with detection_history := if hist.length > s.max_history then hist.drop 1 else hist }

/-- The strategy loop of `detect`: walk the `(name, result)` list in order and
return the first result, stamped with the winning strategy's name and the
screenshot hash; a strategy that raised is recorded as `none`, matching the
per-strategy `except` that logs and falls through. -/
def strategyLoop (h : String) : List (String × Option Detection) → Option Detection
  | [] => none
  | (name, r) :: rest =>
    match r with
    | some d => some { d with detection_method := name, screenshot_hash := h }
    | none => strategyLoop h rest

/-- `OptimizedQuestionDetector.detect`.  `h` is `_hash_screenshot(screenshot)`.
The four strategy outcomes are in the source's fixed order; `template` is
hard-coded `none` because `_detect_by_template` returns `None`, while the
text-pattern, UI-analysis and ML outcomes (`txt`, `ui`, `ml`) are inputs, since
they are produced from the black-box OCR/vision collaborators — in this
revision `_detect_by_ml_classification` also always returns `None`, which the
`ml` input subsumes.  On a hit the cached detection is returned; on a miss the
first qualifying strategy result is cached, appended to the history and
returned. -/
def detect (s : DetectorState) (now : Rat) (h : String)
    (txt ui ml : Option Detection) : Option Detection × DetectorState :=
  let cres := checkCache s h now
  match cres.1 with
  | some d => (some d, cres.2)
  | none =>
    let det := strategyLoop h
      [("template", none), ("text_patterns", txt), ("ui_analysis", ui),
       ("ml_classification", ml)]
    match det with
    | some d => (some d, addToHistory (updateCache cres.2 h d now) d)
    | none => (none, cres.2)

/-! ### `difflib.SequenceMatcher` ratio (used by `is_duplicate`)

`is_duplicate` computes `SequenceMatcher(None, a, b).ratio()` with the default
`autojunk=True` and no junk function.  The ratio is `2*M/(len a + len b)`
where `M` is the total size of the matching blocks.  `__chain_b` first marks
the "popular" characters of `b`: when `len(b) >= 200`, every character
occurring more than `len(b) // 100 + 1` times is purged from the match index
`b2j` (the autojunk heuristic); popularity is decided once on the whole of
`b` and applies in every recursive subrange.  `find_longest_match` then finds
the longest block whose matched positions of `b` are all non-popular — ties
resolved to the earliest start in `a`, then in `b` — and, because the junk
set is empty, extends that block over arbitrary equal characters first to the
left and then to the right (the junk-only extension loops never fire).
`get_matching_blocks` recurses on both sides of the returned block. -/

/-- Number of occurrences of a character in a text. -/
def charCount (b : List Char) (c : Char) : Nat :=
  (b.filter (fun x => x = c)).length

/-- The autojunk heuristic of `SequenceMatcher.__chain_b`: when the second
sequence has at least 200 characters, the characters occurring more than
`len(b) // 100 + 1` times are popular and take no part in the junk-free
matching phase. -/
def popularChars (b : List Char) : List Char :=
  if b.length ≥ 200 then
    (b.filter (fun c => charCount b c > b.length / 100 + 1)).dedup
  else []

/-- Length of the longest common prefix of two character lists (the block
extension loops of `find_longest_match`, which run over arbitrary equal
characters because the junk set is empty). -/
def commonRunLen : List Char → List Char → Nat
  | a :: as, b :: bs => if a = b then commonRunLen as bs + 1 else 0
  | _, _ => 0

/-- Length of the longest match of `a` and `b` at the current offsets whose
matched positions of `b` all carry non-popular characters — the runs the
`j2len` dynamic programming of `find_longest_match` can build, popular
characters being absent from `b2j`. -/
def junkFreeRunLen (pop : List Char) : List Char → List Char → Nat
  | a :: as, b :: bs =>
    if a = b ∧ b ∉ pop then junkFreeRunLen pop as bs + 1 else 0
  | _, _ => 0

/-- All candidate junk-free match positions `(i, j, k)` where `k` is the
length of the longest popular-free match starting at offsets `i` and `j`,
enumerated in lexicographic `(i, j)` order. -/
def matchCandidates (pop a b : List Char) : List (Nat × Nat × Nat) :=
  (List.range a.length).flatMap (fun i =>
    (List.range b.length).map (fun j =>
      (i, j, junkFreeRunLen pop (a.drop i) (b.drop j))))

/-- The junk-free phase of `find_longest_match`: the longest popular-free
matching block, preferring the earliest start in `a` and then in `b`;
`(0, 0, 0)` when nothing matches. -/
def longestJunkFreeBlock (pop a b : List Char) : Nat × Nat × Nat :=
  (matchCandidates pop a b).foldl
    (fun cur cand => if cand.2.2 > cur.2.2 then cand else cur) (0, 0, 0)

/-- The leftward block extension of `find_longest_match` (`while besti > alo
and ... a[besti-1] == b[bestj-1]`): how far the block at offsets `(i, j)`
grows to the left over equal characters. -/
def leftExtendLen (a b : List Char) (i j : Nat) : Nat :=
  commonRunLen (a.take i).reverse (b.take j).reverse

/-- `find_longest_match` on the current (sliced) ranges: the best junk-free
block, extended over arbitrary equal characters first to the left and then to
the right; with no junk-free match it returns `(0, 0, 0)` and the rightward
extension can still grow a block from the range start, exactly as in the
source. -/
def findLongestMatch (pop a b : List Char) : Nat × Nat × Nat :=
  ((longestJunkFreeBlock pop a b).1 - leftExtendLen a b
      (longestJunkFreeBlock pop a b).1 (longestJunkFreeBlock pop a b).2.1,
   (longestJunkFreeBlock pop a b).2.1 - leftExtendLen a b
      (longestJunkFreeBlock pop a b).1 (longestJunkFreeBlock pop a b).2.1,
   (longestJunkFreeBlock pop a b).2.2 + leftExtendLen a b
      (longestJunkFreeBlock pop a b).1 (longestJunkFreeBlock pop a b).2.1 +
     commonRunLen
       (a.drop ((longestJunkFreeBlock pop a b).1 + (longestJunkFreeBlock pop a b).2.2))
       (b.drop ((longestJunkFreeBlock pop a b).2.1 + (longestJunkFreeBlock pop a b).2.2)))

/-- Total matched size over all matching blocks (`sum of k` in
`get_matching_blocks`), with fuel; `a.length + b.length + 1` always suffices
since each recursive call strictly shortens `a`.  The popular-character list
is fixed from the original second sequence throughout the recursion. -/
def matchTotal (pop : List Char) : Nat → List Char → List Char → Nat
  | 0, _, _ => 0
  | fuel + 1, a, b =>
    if (findLongestMatch pop a b).2.2 = 0 then 0
    else
      matchTotal pop fuel (a.take (findLongestMatch pop a b).1)
          (b.take (findLongestMatch pop a b).2.1) +
        (findLongestMatch pop a b).2.2 +
        matchTotal pop fuel
          (a.drop ((findLongestMatch pop a b).1 + (findLongestMatch pop a b).2.2))
          (b.drop ((findLongestMatch pop a b).2.1 + (findLongestMatch pop a b).2.2))

/-- `SequenceMatcher(None, a, b).ratio()` with the default autojunk
heuristic; `1` when both strings are empty. -/
def similarityScore (a b : List Char) : Rat :=
  if a.length + b.length = 0 then 1
  else 2 * (matchTotal (popularChars b) (a.length + b.length + 1) a b : Rat) /
    ((a.length : Rat) + (b.length : Rat))

/-- `OptimizedQuestionDetector.is_duplicate`: compare only against the most
recent history entry; suppress when it is less than two seconds old and the
`SequenceMatcher` ratio of the two question texts exceeds 0.9. -/
def isDuplicate (history : List Detection) (d : Detection) : Bool :=
  match history.getLast? with
  | none => false
  | some last =>
    if d.timestamp - last.timestamp < 2 then
      decide (similarityScore d.question_text last.question_text > 9 / 10)
    else false

/-- Whitespace split of a text (Python `str.split()`), for the claim-side
word-set similarity. -/
def splitWordsAux : List Char → List Char → List (List Char)
  | [], acc => if acc = [] then [] else [acc.reverse]
  | c :: cs, acc =>
    if c.isWhitespace then
      if acc = [] then splitWordsAux cs [] else acc.reverse :: splitWordsAux cs []
    else splitWordsAux cs (c :: acc)

/-- The word set of a text, as a deduplicated list. -/
def wordSet (t : List Char) : List (List Char) := (splitWordsAux t []).dedup

/-- Word-set similarity as claim C8 words it: intersection over union of the
two word sets (zero when both texts have no words). -/
def wordSetSimilarity (a b : List Char) : Rat :=
  let wa := wordSet a
  let wb := wordSet b
  let u := (wa ++ wb).dedup
  if u.length = 0 then 0
  else ((wa.filter (fun w => w ∈ wb)).length : Rat) / (u.length : Rat)

/-- Duplicate suppression as claim C8 words it: the most recent detection is
under two seconds older and the word-set similarity exceeds 0.9. -/
def claimIsDuplicate (history : List Detection) (d : Detection) : Bool :=
  match history.getLast? with
  | none => false
  | some last =>
    decide (d.timestamp - last.timestamp < 2) &&
      decide (wordSetSimilarity d.question_text last.question_text > 9 / 10)

/-! ## `OptimizedScreenCapture` (`src/detection/optimized_capture.py`) -/

/-- The image-processing collaborators `capture_screen` relies on, abstracted
over the frame type: the active mode's capture interval, `_optimize_image`,
the perceptual hash `_calculate_hash`, the shape test, the count of pixels
whose absolute difference exceeds 30, and `img.nbytes`. -/
structure CaptureEnv (F : Type) where
  interval : Rat
  optimize : F → F
  phash : F → Nat
  sameShape : F → F → Bool
  diffCount : F → F → Nat
  nbytes : F → Nat

/-- `self.change_threshold`. -/
def changeThreshold : Nat := 5000

/-- Mutable capture state, including the shared global `cache_manager` the
module stores the last screenshot in. -/
structure CaptureState (F : Type) where
  cache : CacheMgr F
  last_capture_time : Rat
  last_capture_hash : Option Nat
  previous_frame : Option F

/-- `OptimizedScreenCapture._should_process`: reject when the perceptual hash
equals the stored one; otherwise store the new hash immediately, then reject
when a same-shaped previous frame differs in fewer than `change_threshold`
pixels; otherwise accept and store the frame as `previous_frame`. -/
def shouldProcess {F : Type} (env : CaptureEnv F) (s : CaptureState F) (img : F) :
    Bool × CaptureState F :=
  if s.last_capture_hash = some (env.phash img) then (false, s)
  else
    match s.previous_frame with
    | some prev =>
      if env.sameShape prev img then
        if env.diffCount prev img < changeThreshold then
          (false, { s with last_capture_hash := some (env.phash img) })
        else
          (true,
           { s with
              last_capture_hash := some (env.phash img)
              previous_frame := some img })
      else
        (true,
         { s with
            last_capture_hash := some (env.phash img)
            previous_frame := some img })
    | none =>
      (true,
       { s with
          last_capture_hash := some (env.phash img)
          previous_frame := some img })

/-- The capture-and-filter path of `capture_screen`: grab (the raw frame is the
input `raw`), optimize, and run `_should_process`; on acceptance cache the
frame under `last_screenshot` and advance `last_capture_time`, otherwise
return the previous frame unchanged. -/
def captureFresh {F : Type} (env : CaptureEnv F) (s : CaptureState F)
    (now : Rat) (raw : F) : Option F × CaptureState F :=
  if (shouldProcess env s (env.optimize raw)).1 then
    (some (env.optimize raw),
     { (shouldProcess env s (env.optimize raw)).2 with
        cache := cmPut (shouldProcess env s (env.optimize raw)).2.cache
          "last_screenshot" (env.optimize raw) (env.nbytes (env.optimize raw)) now,
        last_capture_time := now })
  else ((shouldProcess env s (env.optimize raw)).2.previous_frame,
        (shouldProcess env s (env.optimize raw)).2)

/-- `OptimizedScreenCapture.capture_screen`: within one interval of the last
accepted capture, return the cached screenshot when the shared cache still
holds one; on a cache miss — and always outside the interval — fall through to
a fresh capture. -/
def captureScreen {F : Type} (env : CaptureEnv F) (s : CaptureState F)
    (now : Rat) (raw : F) : Option F × CaptureState F :=
  if now - s.last_capture_time < env.interval then
    match (cmGet s.cache "last_screenshot" now).1 with
    | some c => (some c, { s with cache := (cmGet s.cache "last_screenshot" now).2 })
    | none =>
      captureFresh env { s with cache := (cmGet s.cache "last_screenshot" now).2 } now raw
  else captureFresh env s now raw

/-! ## Invariants and concrete fixtures -/

/-- Keys of an association list are pairwise distinct, as they are for a
Python dict. -/
def NodupKeys {β : Type} (l : List (String × β)) : Prop :=
  (l.map Prod.fst).Nodup

/-- The `CacheManager` state invariant: dict keys are distinct and the running
`total_size` never overstates the sum of the recorded entry sizes.  (It can
understate it: re-putting a key that then gets evicted subtracts the old size
twice.) -/
def cmInv {V : Type} (c : CacheMgr V) : Prop :=
  NodupKeys c.entries ∧ c.total_size ≤ (cmSumSizes c.entries : Int)

/-- The byte total `put` still owes for the key being re-inserted: the size of
the key's current entry, already subtracted from `total_size` but not yet
removed from the entry list. -/
def cmSlack {V : Type} (c : CacheMgr V) (k : String) : Int :=
  match alookup c.entries k with
  | some e => (e.size : Int)
  | none => 0

/-- Value currently cached under a key, ignoring access-time bookkeeping. -/
def cmPeek {V : Type} (c : CacheMgr V) (k : String) : Option V :=
  (alookup c.entries k).map (fun e => e.value)

/-- Capture collaborators used by the concrete capture scenarios: interval 5,
identity optimisation, the frame value as its own perceptual hash, all frames
same-shaped, and a pixel-difference count of zero (always below the change
floor). -/
def capEnvA : CaptureEnv Nat :=
  ⟨5, id, id, fun _ _ => true, fun _ _ => 0, fun _ => 1⟩

/-- A freshly constructed capture state: empty shared cache, no accepted
frame, `last_capture_time = 0`. -/
def capFresh0 : CaptureState Nat := ⟨cmEmpty Nat 1000, 0, none, none⟩

/-- A capture state that has already accepted a frame: stored hash `5`,
previous frame `3`. -/
def capRejState : CaptureState Nat := ⟨cmEmpty Nat 1000, 0, some 5, some 3⟩

/-- A capture state whose shared cache holds a screenshot `42` under
`last_screenshot`. -/
def capCachedState : CaptureState Nat :=
  ⟨⟨[("last_screenshot", ⟨42, 1, 0⟩)], 1, 1000⟩, 0, some 42, some 42⟩

/-- Concrete fitting outcomes for the retraining scenarios: recognisable
distinct tokens for each produced model. -/
def cexFitEnv : FitEnv :=
  ⟨fun _ => 100, 101, fun _ => 102, 103, fun _ => 104, 105, fun _ => 106⟩

/-- A live model state before a retraining pass. -/
def cexPreModels : MLModels := ⟨0, some 1, some 2, some 3, 7⟩

/-- A detection whose text is the single word `abcdefghijk`. -/
def cexDetOld : Detection :=
  ⟨"abcdefghijk".data, [], 1, none, 0, "text_patterns", "h0"⟩

/-- A detection one second later whose text is the single word `abcdefghijX`:
a different word, but at character level 10 of 11 characters match. -/
def cexDetNew : Detection :=
  ⟨"abcdefghijX".data, [], 1, none, 1, "text_patterns", "h1"⟩

/-- A detection three seconds after `cexDetOld` with the identical text. -/
def cexDetLate : Detection :=
  ⟨"abcdefghijk".data, [], 1, none, 3, "text_patterns", "h2"⟩

/-- A plain detection used to exercise the detect loop. -/
def cexDetPlain : Detection := ⟨"what is x".data, [], 3/4, none, 0, "", ""⟩

/-- An empty detector state with TTL 300 and history bound 100. -/
def detState0 : DetectorState := ⟨[], 300, [], 100⟩

/-! ## Helper lemmas on association lists -/

theorem alookup_isSome_of_mem {β : Type} {l : List (String × β)} {p : String × β}
    (h : p ∈ l) : (alookup l p.1).isSome := by
  induction l with
  | nil => simp at h
  | cons q l ih =>
    rcases q with ⟨a, b⟩
    rcases List.mem_cons.mp h with rfl | hm
    · simp [alookup]
    · by_cases hk : a = p.1 <;> simp [alookup, hk, ih hm]

theorem alookup_aupdate_self {β : Type} {l : List (String × β)} {k : String}
    (nv : β) (h : (alookup l k).isSome) : alookup (aupdate l k nv) k = some nv := by
  induction l with
  | nil => simp [alookup] at h
  | cons q l ih =>
    rcases q with ⟨a, b⟩
    by_cases hk : a = k
    · simp [alookup, aupdate, hk]
    · simp [alookup, aupdate, hk] at h ⊢
      exact ih h

theorem alookup_aupdate_ne {β : Type} {l : List (String × β)} {k k2 : String}
    (nv : β) (h : k ≠ k2) : alookup (aupdate l k nv) k2 = alookup l k2 := by
  induction l with
  | nil => simp [alookup, aupdate]
  | cons q l ih =>
    rcases q with ⟨a, b⟩
    by_cases hk : a = k
    · subst hk
      simp [alookup, aupdate, h, Ne.symm h]
    · by_cases hk2 : a = k2 <;> simp [alookup, aupdate, hk, hk2, ih, Ne.symm h]

theorem alookup_append_fresh {β : Type} {l : List (String × β)} {k : String}
    (e : β) (h : alookup l k = none) : alookup (l ++ [(k, e)]) k = some e := by
  induction l with
  | nil => simp [alookup]
  | cons q l ih =>
    rcases q with ⟨a, b⟩
    by_cases hk : a = k
    · simp [alookup, hk] at h
    · simp [alookup, hk] at h ⊢
      exact ih h

theorem alookup_aerase_ne {β : Type} {l : List (String × β)} {k k2 : String}
    (h : k ≠ k2) : alookup (aerase l k) k2 = alookup l k2 := by
  induction l with
  | nil => simp [alookup, aerase]
  | cons q l ih =>
    rcases q with ⟨a, b⟩
    by_cases hk : a = k
    · subst hk
      simp [alookup, aerase, h, Ne.symm h]
    · by_cases hk2 : a = k2 <;> simp [alookup, aerase, hk, hk2, ih, Ne.symm h]

theorem aupdate_keys {β : Type} (l : List (String × β)) (k : String) (nv : β) :
    (aupdate l k nv).map Prod.fst = l.map Prod.fst := by
  induction l with
  | nil => simp [aupdate]
  | cons q l ih =>
    rcases q with ⟨a, b⟩
    by_cases hk : a = k <;> simp [aupdate, hk, ih]

theorem aerase_keys_sublist {β : Type} (l : List (String × β)) (k : String) :
    ((aerase l k).map Prod.fst).Sublist (l.map Prod.fst) := by
  induction l with
  | nil => simp [aerase]
  | cons q l ih =>
    rcases q with ⟨a, b⟩
    by_cases hk : a = k
    · simp only [aerase, hk, if_pos]
      exact (List.sublist_cons_self _ _)
    · simp only [aerase, hk, if_neg, not_false_iff, List.map_cons]
      exact ih.cons₂ a

theorem alookup_eq_none_of_not_mem_keys {β : Type} {l : List (String × β)} {k : String}
    (h : k ∉ l.map Prod.fst) : alookup l k = none := by
  induction l with
  | nil => simp [alookup]
  | cons q l ih =>
    rcases q with ⟨a, b⟩
    simp only [List.map_cons, List.mem_cons] at h
    push_neg at h
    simp [alookup, Ne.symm h.1, ih h.2]

theorem mem_keys_of_alookup_isSome {β : Type} {l : List (String × β)} {k : String}
    (h : (alookup l k).isSome) : k ∈ l.map Prod.fst := by
  by_contra hk
  rw [alookup_eq_none_of_not_mem_keys hk] at h
  simp at h

theorem alookup_aerase_self {β : Type} {l : List (String × β)} {k : String}
    (h : (l.map Prod.fst).Nodup) : alookup (aerase l k) k = none := by
  induction l with
  | nil => simp [aerase, alookup]
  | cons q l ih =>
    rcases q with ⟨a, b⟩
    simp only [List.map_cons, List.nodup_cons] at h
    by_cases hk : a = k
    · subst hk
      simp only [aerase, if_pos rfl]
      exact alookup_eq_none_of_not_mem_keys h.1
    · simp [aerase, alookup, hk, ih h.2]

theorem aerase_length {β : Type} {l : List (String × β)} {k : String}
    (h : (alookup l k).isSome) : (aerase l k).length + 1 = l.length := by
  induction l with
  | nil => simp [alookup] at h
  | cons q l ih =>
    rcases q with ⟨a, b⟩
    by_cases hk : a = k
    · simp [aerase, hk]
    · simp only [alookup, hk, if_neg, not_false_iff] at h
      simp [aerase, hk, ← ih h]

theorem alookup_of_mem_nodup {β : Type} {l : List (String × β)} {p : String × β}
    (hnd : (l.map Prod.fst).Nodup) (h : p ∈ l) : alookup l p.1 = some p.2 := by
  induction l with
  | nil => simp at h
  | cons q l ih =>
    rcases q with ⟨a, b⟩
    simp only [List.map_cons, List.nodup_cons] at hnd
    rcases List.mem_cons.mp h with rfl | hm
    · simp [alookup]
    · have hne : a ≠ p.1 := by
        intro hE
        exact hnd.1 (hE ▸ (List.mem_map.mpr ⟨p, hm, rfl⟩))
      simp [alookup, hne, ih hnd.2 hm]

theorem listMinBy_eq_none {α β : Type} [LinearOrder β] (f : α → β) (l : List α)
    (h : listMinBy f l = none) : l = [] := by
  cases l with
  | nil => rfl
  | cons x l2 =>
    exfalso
    rcases hl : listMinBy f l2 with _ | m <;> simp only [listMinBy, hl] at h
    · exact Option.noConfusion h
    · split_ifs at h

theorem listMinBy_mem {α β : Type} [LinearOrder β] (f : α → β) :
    ∀ (l : List α) (m : α), listMinBy f l = some m → m ∈ l := by
  intro l
  induction l with
  | nil => intro m h; simp [listMinBy] at h
  | cons x l ih =>
    intro m h
    rcases hl : listMinBy f l with _ | m0
    · simp only [listMinBy, hl, Option.some_inj] at h
      subst h
      exact List.mem_cons_self x l
    · simp only [listMinBy, hl] at h
      split_ifs at h with hle
      · simp only [Option.some_inj] at h
        subst h
        exact List.mem_cons_self x l
      · simp only [Option.some_inj] at h
        subst h
        exact List.mem_cons_of_mem x (ih m0 hl)

theorem listMinBy_le {α β : Type} [LinearOrder β] (f : α → β) :
    ∀ (l : List α) (m : α), listMinBy f l = some m → ∀ x ∈ l, f m ≤ f x := by
  intro l
  induction l with
  | nil => intro m h; simp [listMinBy] at h
  | cons x l ih =>
    intro m h y hy
    rcases hl : listMinBy f l with _ | m0
    · have hnil : l = [] := listMinBy_eq_none f l hl
      subst hnil
      simp only [listMinBy, Option.some_inj] at h
      subst h
      rcases List.mem_singleton.mp hy with rfl
      exact le_rfl
    · simp only [listMinBy, hl] at h
      split_ifs at h with hle
      · simp only [Option.some_inj] at h
        subst h
        rcases List.mem_cons.mp hy with rfl | hm
        · exact le_rfl
        · exact le_trans hle (ih m0 hl y hm)
      · simp only [Option.some_inj] at h
        subst h
        rcases List.mem_cons.mp hy with rfl | hm
        · exact le_of_not_le hle
        · exact ih m0 hl y hm

theorem listMinBy_isSome {α β : Type} [LinearOrder β] (f : α → β) (l : List α)
    (h : l ≠ []) : (listMinBy f l).isSome := by
  cases l with
  | nil => exact absurd rfl h
  | cons x l =>
    rcases hl : listMinBy f l with _ | m
    · simp [listMinBy, hl]
    · simp only [listMinBy, hl]
      split_ifs <;> simp

theorem schedPick_eq_none {q : List SchedEntry} (h : schedPick q = none) : q = [] := by
  cases q with
  | nil => rfl
  | cons x l =>
    exfalso
    rcases hl : schedPick l with _ | m <;> simp only [schedPick, hl] at h
    · exact Option.noConfusion h
    · split_ifs at h

theorem schedPick_min :
    ∀ (q : List SchedEntry) (e : SchedEntry), schedPick q = some e →
      ∀ f ∈ q, e.priority < f.priority ∨
        (e.priority = f.priority ∧ e.schedTime ≤ f.schedTime) := by
  intro q
  induction q with
  | nil => intro e h; simp [schedPick] at h
  | cons x l ih =>
    intro e hpick f hf
    rcases hl : schedPick l with _ | m0
    · have hnil : l = [] := schedPick_eq_none hl
      subst hnil
      simp only [schedPick, Option.some_inj] at hpick
      rcases List.mem_singleton.mp hf with rfl
      rw [← hpick]
      exact Or.inr ⟨rfl, le_rfl⟩
    · simp only [schedPick, hl] at hpick
      split_ifs at hpick with hle
      · simp only [Option.some_inj] at hpick
        simp only [schedLe, Bool.or_eq_true, Bool.and_eq_true, decide_eq_true_eq] at hle
        rcases List.mem_cons.mp hf with hfx | hm
        · rw [← hpick, hfx]
          exact Or.inr ⟨rfl, le_rfl⟩
        · rw [← hpick]
          have hrec := ih m0 hl f hm
          rcases hle with hlt | ⟨heq, hts⟩
          · rcases hrec with hlt2 | ⟨heq2, _⟩
            · exact Or.inl (lt_trans hlt hlt2)
            · exact Or.inl (heq2 ▸ hlt)
          · rcases hrec with hlt2 | ⟨heq2, hts2⟩
            · exact Or.inl (heq ▸ hlt2)
            · exact Or.inr ⟨heq.trans heq2, le_trans hts hts2⟩
      · simp only [Option.some_inj] at hpick
        simp only [schedLe, Bool.or_eq_true, Bool.and_eq_true, decide_eq_true_eq,
          not_or] at hle
        push_neg at hle
        rcases List.mem_cons.mp hf with hfx | hm
        · rw [← hpick, hfx]
          have hpge : m0.priority ≤ x.priority := hle.1
          rcases eq_or_lt_of_le hpge with heq | hlt
          · exact Or.inr ⟨heq, le_of_lt (hle.2 heq.symm)⟩
          · exact Or.inl hlt
        · rw [← hpick]
          exact ih m0 hl f hm

/-! ## Claim C4 — adaptive mode resolution -/

/-- Claim C4, counterexample.  The claim reads "PowerSaver when a battery is
available, below 30%, and not plugged in"; with a present battery at exactly
0% (available, below 30, unplugged) and low load, the source's truthiness test
`profile.battery_percent and ...` treats the battery as absent and resolves to
HighPerformance, not PowerSaver. -/
theorem claim_C4_counterexample :
    adjustAdaptiveMode ⟨10, 20, some 0, false⟩ = PMode.high ∧
    claimResolveMode ⟨10, 20, some 0, false⟩ = PMode.saver ∧
    PMode.high ≠ PMode.saver := by
  refine ⟨by decide, by decide, by decide⟩

/-- Claim C4, amended: with "battery available" read as "battery present with
nonzero charge" (in both the 30% and the 20% test), adaptive resolution is
exactly the claimed cascade; the claim's three concrete instances hold as
stated. -/
theorem claim_C4_adaptive_mode :
    (∀ p : RProfile, adjustAdaptiveMode p = claimResolveModeAmended p) ∧
    (∀ cpu mem : Rat, adjustAdaptiveMode ⟨cpu, mem, some 15, false⟩ = PMode.saver) ∧
    (∀ p : RProfile, p.cpu = 90 → adjustAdaptiveMode p = PMode.saver) ∧
    (∀ pl : Bool, adjustAdaptiveMode ⟨10, 20, none, pl⟩ = PMode.high) := by
  refine ⟨?_, ?_, ?_, ?_⟩
  · intro p
    rcases p with ⟨cpu, mem, batt, pl⟩
    cases batt <;> rfl
  · intro cpu mem
    have hb : batteryLt (some (15 : Rat)) 30 = true := by decide
    simp [adjustAdaptiveMode, hb]
  · intro p h
    rcases p with ⟨cpu, mem, batt, pl⟩
    simp only at h
    subst h
    by_cases hb : (batteryLt batt 30 && !pl) = true
    · simp [adjustAdaptiveMode, hb]
    · have hl : isHighLoad ⟨90, mem, batt, pl⟩ = true := by
        simp [isHighLoad]
        norm_num
      simp [adjustAdaptiveMode, hb, hl]
  · intro pl
    cases pl <;> decide

/-- Claim C4 witness: the amended resolution evaluated at cpu 90. -/
theorem claim_C4_witness : adjustAdaptiveMode ⟨90, 20, none, true⟩ = PMode.saver :=
  claim_C4_adaptive_mode.2.2.1 ⟨90, 20, none, true⟩ rfl

/-! ## Claim C10 — `ThreadSafeCache.put` resets the access count -/

/-- Claim C10: `ThreadSafeCache.put` unconditionally stores the key with
access count zero — also when overwriting an existing key — so immediately
after a put the key is present with count 0, which is a minimal count among
all entries (counts are naturals), making it a first-choice LFU eviction
candidate until read again. -/
theorem claim_C10_put_resets_count :
    ∀ (V : Type) (c : TSCache V) (k : String) (v : V),
      alookup (tsPut c k v).entries k = some ⟨v, 0⟩ ∧
      ∀ p ∈ (tsPut c k v).entries, (⟨v, 0⟩ : TSEntry V).count ≤ p.2.count := by
  intro V c k v
  constructor
  · show alookup (tsPut c k v).entries k = some ⟨v, 0⟩
    unfold tsPut
    rcases h1 : alookup (if c.entries.length ≥ c.max_size ∧ (alookup c.entries k).isNone
        then tsEvict c else c).entries k with _ | e
    · simp only [h1]
      exact alookup_append_fresh _ h1
    · simp only [h1]
      exact alookup_aupdate_self _ (by simp [h1])
  · intro p _
    exact Nat.zero_le _

/-- Claim C10 witness: overwriting a key whose count was raised by two reads
drops its count back to zero. -/
theorem claim_C10_witness :
    alookup (tsPut (tsGet (tsGet (tsPut (tsEmpty Nat 2) "a" 5) "a").2 "a").2 "a" 9).entries
        "a" = some ⟨9, 0⟩ ∧
    (⟨9, 0⟩ : TSEntry Nat).count ≤
      (("a", (⟨9, 0⟩ : TSEntry Nat))).2.count :=
  ⟨(claim_C10_put_resets_count Nat (tsGet (tsGet (tsPut (tsEmpty Nat 2) "a" 5) "a").2 "a").2
      "a" 9).1,
   (claim_C10_put_resets_count Nat (tsGet (tsGet (tsPut (tsEmpty Nat 2) "a" 5) "a").2 "a").2
      "a" 9).2 ("a", ⟨9, 0⟩) (by decide)⟩

/-! ## Claim C9 — delayed-task scheduler -/

/-- Claim C9, counterexample.  The claim says the pending queue is ordered by
scheduled wall-clock time, but the heap holds `(priority, scheduled_time,
task)` tuples compared lexicographically: with a REALTIME (0) task scheduled
at time 10 and a LOW (3) task scheduled at time 1 queued together, the
dequeued task is the one scheduled at time 10, not the earliest one. -/
theorem claim_C9_counterexample :
    schedPick [⟨0, 10, 1⟩, ⟨3, 1, 2⟩] = some ⟨0, 10, 1⟩ ∧
    (⟨3, 1, 2⟩ : SchedEntry) ∈ [(⟨0, 10, 1⟩ : SchedEntry), ⟨3, 1, 2⟩] ∧
    ¬ ((10 : Rat) ≤ 1) := by
  refine ⟨by decide, by decide, by decide⟩

/-- Claim C9, amended: the scheduler never submits a dequeued task before its
scheduled time (a task dequeued early is slept on and, when still not ready,
re-queued rather than executed), and the queue dequeues a task minimal in the
lexicographic (priority, scheduled-time) order — by priority first, by
scheduled wall-clock time only within one priority. -/
theorem claim_C9_scheduler :
    (∀ (q : List SchedEntry) (t : Rat) (e : SchedEntry) (ts : Rat)
        (q1 : List SchedEntry) (t1 : Rat),
      schedStep q t = (some (e, ts), q1, t1) → e.schedTime ≤ ts) ∧
    (∀ (q : List SchedEntry) (e : SchedEntry), schedPick q = some e →
      ∀ f ∈ q, e.priority < f.priority ∨
        (e.priority = f.priority ∧ e.schedTime ≤ f.schedTime)) ∧
    (∀ (q : List SchedEntry) (t : Rat) (e : SchedEntry), schedPick q = some e →
      e.schedTime > t + 1 → schedStep q t = (none, q.erase e ++ [e], t + 1)) := by
  refine ⟨?_, ?_, ?_⟩
  · intro q t e ts q1 t1 h
    rcases hp : schedPick q with _ | e0 <;>
      simp only [schedStep, hp, Prod.mk.injEq, Option.some_inj] at h
    · exact absurd h.1 (by simp)
    · split_ifs at h with hw hfut
      · exact Option.noConfusion (congrArg Prod.fst h)
      · obtain ⟨⟨rfl, rfl⟩, -, -⟩ := h
        exact le_of_not_lt hfut
      · obtain ⟨⟨rfl, rfl⟩, -, -⟩ := h
        push_neg at hw
        linarith
  · exact schedPick_min
  · intro q t e hpick hfut
    have hw : e.schedTime - t > 0 := by linarith
    have hmin : min (e.schedTime - t) 1 = (1 : Rat) := min_eq_right (by linarith)
    simp only [schedStep, hpick, hmin]
    rw [if_pos hw, if_pos hfut]

/-- Claim C9 witness: the dequeue-order bound applied at a singleton queue,
and the re-queue rule applied to a task scheduled well in the future. -/
theorem claim_C9_witness :
    ((⟨0, 3, 1⟩ : SchedEntry).priority < (⟨0, 3, 1⟩ : SchedEntry).priority ∨
      ((⟨0, 3, 1⟩ : SchedEntry).priority = (⟨0, 3, 1⟩ : SchedEntry).priority ∧
        (⟨0, 3, 1⟩ : SchedEntry).schedTime ≤ (⟨0, 3, 1⟩ : SchedEntry).schedTime)) ∧
    schedStep [⟨2, 10, 4⟩] 0 =
      (none, ([(⟨2, 10, 4⟩ : SchedEntry)].erase ⟨2, 10, 4⟩) ++ [⟨2, 10, 4⟩], 0 + 1) :=
  ⟨claim_C9_scheduler.2.1 [⟨0, 3, 1⟩] ⟨0, 3, 1⟩ (by decide) ⟨0, 3, 1⟩ (by decide),
   claim_C9_scheduler.2.2 [⟨2, 10, 4⟩] 0 ⟨2, 10, 4⟩ (by decide) (by norm_num)⟩

/-! ## Claim C2 — ensemble prediction -/

theorem ensembleWeight_nonneg (name : String) : (0 : Rat) ≤ ensembleWeight name := by
  unfold ensembleWeight
  split_ifs <;> norm_num

theorem totalWeight_nonneg (l : List (String × Rat)) : 0 ≤ totalWeight l := by
  induction l with
  | nil => simp [totalWeight]
  | cons p l ih =>
    have hw := ensembleWeight_nonneg p.1
    simp only [totalWeight, List.map_cons, List.sum_cons]
    simp only [totalWeight] at ih
    linarith

theorem weightedScoreSum_bounds (l : List (String × Rat))
    (h : ∀ p ∈ l, 0 ≤ p.2 ∧ p.2 ≤ 1) :
    0 ≤ weightedScoreSum l ∧ weightedScoreSum l ≤ totalWeight l := by
  induction l with
  | nil => simp [weightedScoreSum, totalWeight]
  | cons p l ih =>
    obtain ⟨h0, h1⟩ := h p (List.mem_cons_self p l)
    obtain ⟨ih0, ih1⟩ := ih (fun q hq => h q (List.mem_cons_of_mem p hq))
    have hw := ensembleWeight_nonneg p.1
    have hstep : p.2 * ensembleWeight p.1 ≤ ensembleWeight p.1 := by nlinarith
    have hpos : 0 ≤ p.2 * ensembleWeight p.1 := mul_nonneg h0 hw
    constructor
    · simp only [weightedScoreSum, List.map_cons, List.sum_cons]
      simp only [weightedScoreSum] at ih0
      linarith
    · simp only [weightedScoreSum, totalWeight, List.map_cons, List.sum_cons]
      simp only [weightedScoreSum, totalWeight] at ih1
      linarith

theorem optPred_bounded {name : String} {o : Option Rat}
    (h : ∀ x, o = some x → 0 ≤ x ∧ x ≤ 1) :
    ∀ p ∈ optPred name o, 0 ≤ p.2 ∧ p.2 ≤ 1 := by
  intro p hp
  cases o with
  | none => simp [optPred] at hp
  | some x =>
    simp only [optPred, List.mem_singleton] at hp
    subst hp
    exact h x rfl

theorem optPred_name {name : String} {o : Option Rat} {p : String × Rat}
    (hp : p ∈ optPred name o) : p.1 = name := by
  cases o with
  | none => simp [optPred] at hp
  | some x =>
    simp only [optPred, List.mem_singleton] at hp
    subst hp
    rfl

theorem predictWithNet_bounded {o : Option Rat}
    (h : ∀ x, o = some x → 0 ≤ x ∧ x ≤ 1) :
    0 ≤ predictWithNet o ∧ predictWithNet o ≤ 1 := by
  cases o with
  | none =>
    constructor <;> norm_num [predictWithNet]
  | some x => exact h x rfl

theorem allPredictions_bounded (s : ScorerOutputs)
    (hrf : ∀ x, s.rf = some x → 0 ≤ x ∧ x ≤ 1)
    (hgb : ∀ x, s.gb = some x → 0 ≤ x ∧ x ≤ 1)
    (hmlp : ∀ x, s.mlp = some x → 0 ≤ x ∧ x ≤ 1)
    (hnn : ∀ x, s.nnModel = some x → 0 ≤ x ∧ x ≤ 1)
    (hcnn : ∀ x, s.cnnModel = some x → 0 ≤ x ∧ x ≤ 1) :
    ∀ p ∈ allPredictions s, 0 ≤ p.2 ∧ p.2 ≤ 1 := by
  intro p hp
  simp only [allPredictions, predictWithMl, List.append_assoc, List.mem_append,
    List.mem_cons, List.not_mem_nil, or_false] at hp
  rcases hp with hp | hp | hp | hp | hp
  · exact optPred_bounded hrf p hp
  · exact optPred_bounded hgb p hp
  · exact optPred_bounded hmlp p hp
  · subst hp
    exact predictWithNet_bounded hnn
  · subst hp
    exact predictWithNet_bounded hcnn

theorem totalWeight_allPredictions_pos (s : ScorerOutputs) :
    0 < totalWeight (allPredictions s) := by
  have hml := totalWeight_nonneg (predictWithMl s)
  have hsplit : totalWeight (allPredictions s) =
      totalWeight (predictWithMl s) +
        (ensembleWeight "nn" + ensembleWeight "cnn") := by
    simp only [allPredictions, totalWeight, List.map_append, List.sum_append,
      List.map_cons, List.sum_cons, List.map_nil, List.sum_nil]
    ring
  have hnnw : ensembleWeight "nn" = 25 / 100 := by simp [ensembleWeight]
  have hcnnw : ensembleWeight "cnn" = 15 / 100 := by simp [ensembleWeight]
  rw [hsplit, hnnw, hcnnw]
  linarith

/-- Claim C2, counterexample.  With only the random forest trained and
returning score 1, any convex combination over the present scorers alone would
equal 1; the code instead yields 2/3, because the untrained `nn` and `cnn`
scorers contribute the default score 0.5 at weights 0.25 and 0.15. -/
theorem claim_C2_counterexample :
    predictWithMl ⟨some 1, none, none, none, none⟩ = [("rf", 1)] ∧
    ensembleScore ⟨some 1, none, none, none, none⟩ = 2 / 3 ∧
    (2 / 3 : Rat) ≠ 1 := by
  refine ⟨by simp [predictWithMl, optPred], ?_, by norm_num⟩
  have hs : weightedScoreSum (allPredictions ⟨some 1, none, none, none, none⟩) = 2 / 5 := by
    simp [allPredictions, predictWithMl, optPred, predictWithNet, weightedScoreSum,
      ensembleWeight]
    norm_num
  have ht : totalWeight (allPredictions ⟨some 1, none, none, none, none⟩) = 3 / 5 := by
    simp [allPredictions, predictWithMl, optPred, totalWeight, ensembleWeight]
    norm_num
  simp only [ensembleScore, hs, ht]
  norm_num

/-- Claim C2, amended: the combined score is a convex combination over the
contributing scores — the rf/gb/mlp scorers contribute only when trained, but
the nn and cnn scorers always contribute, with the default score 0.5 when
untrained — and the resulting confidence lies in [0,1] whenever every
contributing model score does. -/
theorem claim_C2_ensemble (s : ScorerOutputs)
    (hrf : ∀ x, s.rf = some x → 0 ≤ x ∧ x ≤ 1)
    (hgb : ∀ x, s.gb = some x → 0 ≤ x ∧ x ≤ 1)
    (hmlp : ∀ x, s.mlp = some x → 0 ≤ x ∧ x ≤ 1)
    (hnn : ∀ x, s.nnModel = some x → 0 ≤ x ∧ x ≤ 1)
    (hcnn : ∀ x, s.cnnModel = some x → 0 ≤ x ∧ x ≤ 1) :
    0 ≤ ensembleScore s ∧ ensembleScore s ≤ 1 ∧
    0 < totalWeight (allPredictions s) ∧
    ensembleScore s * totalWeight (allPredictions s) =
      weightedScoreSum (allPredictions s) ∧
    (s.nnModel = none → ("nn", 1 / 2) ∈ allPredictions s) ∧
    (s.rf = none → ∀ x : Rat, ("rf", x) ∉ allPredictions s) ∧
    (∀ x : Rat, s.rf = some x → ("rf", x) ∈ allPredictions s) := by
  have hb := allPredictions_bounded s hrf hgb hmlp hnn hcnn
  have hws := weightedScoreSum_bounds _ hb
  have htw := totalWeight_allPredictions_pos s
  have hscore : ensembleScore s =
      weightedScoreSum (allPredictions s) / totalWeight (allPredictions s) := by
    simp only [ensembleScore]
    rw [if_pos htw]
  refine ⟨?_, ?_, htw, ?_, ?_, ?_, ?_⟩
  · rw [hscore]
    exact div_nonneg hws.1 (le_of_lt htw)
  · rw [hscore]
    exact (div_le_one htw).mpr hws.2
  · rw [hscore]
    exact div_mul_cancel₀ _ (ne_of_gt htw)
  · intro h
    simp [allPredictions, predictWithNet, h]
  · intro h x hx
    simp only [allPredictions, predictWithMl, h, optPred, List.nil_append,
      List.append_assoc, List.mem_append, List.mem_cons, List.not_mem_nil,
      or_false] at hx
    rcases hx with hx | hx | hx | hx
    · have := optPred_name hx
      simp at this
    · have := optPred_name hx
      simp at this
    · have h2 : ("rf" : String) = "nn" := congrArg Prod.fst hx
      simp at h2
    · have h2 : ("rf" : String) = "cnn" := congrArg Prod.fst hx
      simp at h2
  · intro x hx
    simp [allPredictions, predictWithMl, optPred, hx]

/-- Claim C2 witness: the amended bound evaluated with every scorer untrained
(the ensemble then reports exactly the 0.5 default). -/
theorem claim_C2_witness :
    0 ≤ ensembleScore ⟨none, none, none, none, none⟩ ∧
    ensembleScore ⟨none, none, none, none, none⟩ ≤ 1 :=
  ⟨(claim_C2_ensemble ⟨none, none, none, none, none⟩
      (by simp) (by simp) (by simp) (by simp) (by simp)).1,
   (claim_C2_ensemble ⟨none, none, none, none, none⟩
      (by simp) (by simp) (by simp) (by simp) (by simp)).2.1⟩

/-! ## Claim C3 — retrain atomicity -/

/-- Claim C3, counterexample.  A retraining pass over 100 samples that raises
at the fourth mutation step (constructing the gradient-boosting classifier,
after the scaler was refit and the random forest replaced and refit in place)
leaves a mixed state: a subsequent `predict()` reads the new scaler and the
new random forest together with the old gb/mlp classifiers — not the
pre-retrain state the claim promises. -/
theorem claim_C3_counterexample :
    trainModels cexFitEnv (List.replicate 100 0) (some 3) cexPreModels =
      Except.error ⟨100, some 102, some 2, some 3, 7⟩ ∧
    (⟨100, some 102, some 2, some 3, 7⟩ : MLModels).rf ≠ cexPreModels.rf ∧
    (⟨100, some 102, some 2, some 3, 7⟩ : MLModels).scaler ≠ cexPreModels.scaler := by
  refine ⟨rfl, by decide, by decide⟩

/-- Claim C3, amended: a retraining pass mutates the live scaler and
classifiers in place, one after another, with no rollback.  What does hold:
the ensemble weight table is never touched; a pass rejected for insufficient
data (fewer than 100 samples) leaves everything unchanged; a pass that raises
before the first mutation leaves everything unchanged; and a pass that raises
at step `k` leaves every scorer whose mutation steps lie after `k` unchanged
(gb untouched for `k ≤ 2`, mlp untouched for `k ≤ 4`). -/
theorem claim_C3_retrain_partial :
    (∀ (env : FitEnv) (d : List Nat) (fail : Option Nat) (s : MLModels),
      d.length < 100 → trainModels env d fail s = .ok s) ∧
    (∀ (env : FitEnv) (d : List Nat) (k : Nat) (s e : MLModels),
      trainModels env d (some k) s = .error e →
      e.weights = s.weights ∧ (k = 0 → e = s) ∧
      (k ≤ 2 → e.gb = s.gb ∧ e.mlp = s.mlp) ∧ (k ≤ 4 → e.mlp = s.mlp)) := by
  constructor
  · intro env d fail s h
    simp [trainModels, h]
  · intro env d k s e h
    by_cases hlen : d.length < 100
    · have h0 : trainModels env d (some k) s = .ok s := by simp [trainModels, hlen]
      rw [h0] at h
      exact Except.noConfusion h
    · by_cases hk : k < 7
      · have hh : trainModels env d (some k) s = .error (applySteps env d k s) := by
          simp [trainModels, hlen, hk]
        rw [hh] at h
        simp only [Except.error.injEq] at h
        subst h
        interval_cases k <;> simp [applySteps, trainSteps]
      · have hh : trainModels env d (some k) s = .ok (applySteps env d 7 s) := by
          simp [trainModels, hlen, hk]
        rw [hh] at h
        exact Except.noConfusion h

/-- Claim C3 witness: a pass over 99 samples is rejected and leaves the model
state untouched. -/
theorem claim_C3_witness :
    trainModels cexFitEnv (List.replicate 99 0) none cexPreModels = .ok cexPreModels :=
  claim_C3_retrain_partial.1 cexFitEnv (List.replicate 99 0) none cexPreModels (by simp)

/-! ## Claim C5 — strategy ordering in `detect` -/

/-- Claim C5: on a cache miss, `detect` walks the strategies in the fixed
order template, text-patterns, UI-analysis, ML-classification and returns the
first qualifying result, skipping the rest.  The template strategy of this
revision never qualifies (`_detect_by_template` returns `None`), so whenever
the text-pattern heuristic yields a detection, the reported
`detection_method` is `text_patterns` — irrespective of what the UI-analysis
or ML strategies would have said, in particular when the ML ensemble would
also classify the frame as a question. -/
theorem claim_C5_strategy_order :
    ∀ (s : DetectorState) (now : Rat) (h : String) (txt ui ml : Option Detection),
      (checkCache s h now).1 = none →
      (∀ d, txt = some d → (detect s now h txt ui ml).1 =
        some { d with detection_method := "text_patterns", screenshot_hash := h }) ∧
      (txt = none → ∀ d, ui = some d → (detect s now h txt ui ml).1 =
        some { d with detection_method := "ui_analysis", screenshot_hash := h }) ∧
      (txt = none → ui = none → ∀ d, ml = some d → (detect s now h txt ui ml).1 =
        some { d with detection_method := "ml_classification", screenshot_hash := h }) ∧
      (txt = none → ui = none → ml = none → (detect s now h txt ui ml).1 = none) := by
  intro s now h txt ui ml hmiss
  refine ⟨?_, ?_, ?_, ?_⟩
  · intro d hd
    subst hd
    simp only [detect, hmiss, strategyLoop]
  · intro ht d hd
    subst ht
    subst hd
    simp only [detect, hmiss, strategyLoop]
  · intro ht hu d hd
    subst ht
    subst hu
    subst hd
    simp only [detect, hmiss, strategyLoop]
  · intro ht hu hm
    subst ht
    subst hu
    subst hm
    simp only [detect, hmiss, strategyLoop]

/-- Claim C5 witness: with a fresh detector state, a qualifying text-pattern
result, and a qualifying ML result for the same frame, the reported method is
the text-pattern strategy's name. -/
theorem claim_C5_witness :
    (detect detState0 0 "h1" (some cexDetPlain) none (some cexDetPlain)).1 =
      some { cexDetPlain with detection_method := "text_patterns",
                              screenshot_hash := "h1" } :=
  (claim_C5_strategy_order detState0 0 "h1" (some cexDetPlain) none (some cexDetPlain)
    (by rfl)).1 cexDetPlain rfl

/-! ## Claim C8 — duplicate suppression -/

set_option maxRecDepth 8000 in
theorem similarityScore_cex :
    similarityScore "abcdefghijX".data "abcdefghijk".data = 10 / 11 := by
  have hm : matchTotal (popularChars "abcdefghijk".data)
      ("abcdefghijX".data.length + "abcdefghijk".data.length + 1)
      "abcdefghijX".data "abcdefghijk".data = 10 := by decide
  have hla : "abcdefghijX".data.length = 11 := by decide
  have hlb : "abcdefghijk".data.length = 11 := by decide
  rw [similarityScore, hm]
  rw [hla, hlb]
  norm_num

theorem wordSetSimilarity_cex :
    wordSetSimilarity "abcdefghijX".data "abcdefghijk".data = 0 := by
  have hf : ((wordSet "abcdefghijX".data).filter
      (fun w => w ∈ wordSet "abcdefghijk".data)).length = 0 := by decide
  have hu : (((wordSet "abcdefghijX".data) ++ (wordSet "abcdefghijk".data)).dedup).length
      = 2 := by decide
  rw [wordSetSimilarity]
  simp only [hf, hu]
  norm_num

/-- Claim C8, counterexample.  The source computes similarity with
`difflib.SequenceMatcher(...).ratio()` over the raw character strings, not as
intersection-over-union of word sets.  The single-word texts `abcdefghijk`
and `abcdefghijX` one second apart have entirely disjoint word sets
(similarity 0, so per the claim both detections are reported), yet 10 of the
11 characters match (ratio 10/11 > 0.9), so the code suppresses the second
one. -/
theorem claim_C8_counterexample :
    isDuplicate [cexDetOld] cexDetNew = true ∧
    claimIsDuplicate [cexDetOld] cexDetNew = false := by
  constructor
  · rw [isDuplicate]
    simp only [List.getLast?_singleton]
    rw [if_pos (by norm_num [cexDetOld, cexDetNew])]
    have hsim : similarityScore cexDetNew.question_text cexDetOld.question_text
        = 10 / 11 := similarityScore_cex
    rw [hsim]
    simp only [decide_eq_true_eq]
    norm_num
  · rw [claimIsDuplicate]
    simp only [List.getLast?_singleton]
    have hws : wordSetSimilarity cexDetNew.question_text cexDetOld.question_text
        = 0 := wordSetSimilarity_cex
    rw [hws]
    have h9 : ¬((0 : Rat) > 9 / 10) := by norm_num
    rw [decide_eq_false h9]
    simp

/-- Claim C8, amended: `is_duplicate` returns true exactly when the most
recent detection in history is under two seconds older and the
`SequenceMatcher` character-level similarity of the two question texts —
including the autojunk purge of popular characters when the older text has
at least 200 characters, and not the word-set intersection-over-union —
exceeds 0.9; with an empty history it returns false, and two detections
three seconds apart are both reported. -/
theorem claim_C8_is_duplicate (hist : List Detection) (d : Detection) :
    (isDuplicate hist d = true ↔
      ∃ last, hist.getLast? = some last ∧ d.timestamp - last.timestamp < 2 ∧
        similarityScore d.question_text last.question_text > 9 / 10) ∧
    (∀ last, hist.getLast? = some last → d.timestamp - last.timestamp = 3 →
      isDuplicate hist d = false) := by
  constructor
  · rcases hl : hist.getLast? with _ | last
    · simp [isDuplicate, hl]
    · simp only [isDuplicate, hl]
      constructor
      · intro h
        split_ifs at h with ht
        exact ⟨last, rfl, ht, of_decide_eq_true h⟩
      · rintro ⟨last2, hl2, ht, hs⟩
        obtain rfl := Option.some_inj.mp hl2
        rw [if_pos ht]
        exact decide_eq_true hs
  · intro last hlast h3
    simp only [isDuplicate, hlast]
    rw [h3, if_neg (by norm_num)]

/-- Claim C8 witness: the identical question text re-detected three seconds
later is not suppressed. -/
theorem claim_C8_witness : isDuplicate [cexDetOld] cexDetLate = false :=
  (claim_C8_is_duplicate [cexDetOld] cexDetLate).2 cexDetOld
    (by simp [List.getLast?_singleton])
    (by norm_num [cexDetOld, cexDetLate])

/-! ## Claims C6 and C7 — adaptive capture -/

theorem cmGet_hit {V : Type} {c : CacheMgr V} {k : String} {f : V} (t : Rat)
    (h : cmPeek c k = some f) :
    (cmGet c k t).1 = some f ∧ cmPeek (cmGet c k t).2 k = some f := by
  unfold cmPeek at h
  rcases hl : alookup c.entries k with _ | e
  · rw [hl] at h
    exact absurd h (by simp)
  · rw [hl] at h
    have hef : e.value = f := by simpa using h
    constructor
    · simp [cmGet, hl, hef]
    · simp only [cmGet, hl, cmPeek]
      rw [alookup_aupdate_self _ (by simp [hl])]
      simp [hef]

theorem captureScreen_cached {F : Type} (env : CaptureEnv F) (s : CaptureState F)
    (t : Rat) (raw : F) (f : F)
    (hc : cmPeek s.cache "last_screenshot" = some f)
    (ht : t - s.last_capture_time < env.interval) :
    captureScreen env s t raw =
      (some f, { s with cache := (cmGet s.cache "last_screenshot" t).2 }) := by
  obtain ⟨hg1, -⟩ := cmGet_hit t hc
  unfold captureScreen
  rw [if_pos ht, hg1]

/-- Claim C6, counterexample.  The claim says a call within the interval
window returns nothing when no accepted frame exists; in the source, a cache
miss inside the window falls through to a fresh capture instead.  From a
fresh state (no accepted frame, empty shared cache) a call at time 1 (inside
the interval 5 window of `last_capture_time = 0`) captures, accepts and
returns the new frame rather than nothing. -/
theorem claim_C6_counterexample :
    cmPeek capFresh0.cache "last_screenshot" = none ∧
    capFresh0.previous_frame = none ∧
    (1 : Rat) - capFresh0.last_capture_time < capEnvA.interval ∧
    (captureScreen capEnvA capFresh0 1 7).1 = some 7 := by
  have h1 : (1 : Rat) - capFresh0.last_capture_time < capEnvA.interval := by
    norm_num [capFresh0, capEnvA]
  refine ⟨rfl, rfl, h1, ?_⟩
  unfold captureScreen
  rw [if_pos h1]
  rfl

/-- Claim C6, amended: two `capture_screen` calls within one interval window
of the last accepted capture both return the identical cached frame, without
re-capturing (the capture-side state is untouched by the first call) —
provided the shared cache still holds a `last_screenshot` entry.  When it
does not, the call re-captures instead of returning nothing. -/
theorem claim_C6_capture_window (F : Type) (env : CaptureEnv F) (s : CaptureState F)
    (t1 t2 : Rat) (raw1 raw2 : F) (f : F)
    (hc : cmPeek s.cache "last_screenshot" = some f)
    (h1 : t1 - s.last_capture_time < env.interval)
    (h2 : t2 - s.last_capture_time < env.interval) :
    (captureScreen env s t1 raw1).1 = some f ∧
    (captureScreen env s t1 raw1).2.last_capture_time = s.last_capture_time ∧
    (captureScreen env s t1 raw1).2.previous_frame = s.previous_frame ∧
    (captureScreen env s t1 raw1).2.last_capture_hash = s.last_capture_hash ∧
    (captureScreen env (captureScreen env s t1 raw1).2 t2 raw2).1 = some f := by
  obtain ⟨-, hp1⟩ := cmGet_hit t1 hc
  have hstep := captureScreen_cached env s t1 raw1 f hc h1
  rw [hstep]
  refine ⟨rfl, rfl, rfl, rfl, ?_⟩
  have hstep2 := captureScreen_cached env
    { s with cache := (cmGet s.cache "last_screenshot" t1).2 } t2 raw2 f hp1 h2
  rw [hstep2]

/-- Claim C6 witness: the amended statement at a state whose shared cache
holds frame 42, with both calls inside the window. -/
theorem claim_C6_witness :
    (captureScreen capEnvA capCachedState 1 7).1 = some 42 ∧
    (captureScreen capEnvA (captureScreen capEnvA capCachedState 1 7).2 2 8).1 = some 42 :=
  ⟨(claim_C6_capture_window Nat capEnvA capCachedState 1 2 7 8 42 rfl
      (by norm_num [capCachedState, capEnvA]) (by norm_num [capCachedState, capEnvA])).1,
   (claim_C6_capture_window Nat capEnvA capCachedState 1 2 7 8 42 rfl
      (by norm_num [capCachedState, capEnvA]) (by norm_num [capCachedState, capEnvA])).2.2.2.2⟩

theorem shouldProcess_spec (F : Type) (env : CaptureEnv F) (s : CaptureState F)
    (img : F) :
    ((shouldProcess env s img).1 = false →
      (shouldProcess env s img).2.previous_frame = s.previous_frame ∧
      (shouldProcess env s img).2.last_capture_time = s.last_capture_time ∧
      (shouldProcess env s img).2.cache = s.cache) ∧
    (s.last_capture_hash = some (env.phash img) → shouldProcess env s img = (false, s)) ∧
    (s.last_capture_hash ≠ some (env.phash img) →
      (shouldProcess env s img).2.last_capture_hash = some (env.phash img)) ∧
    ((shouldProcess env s img).1 = true →
      (shouldProcess env s img).2.previous_frame = some img) := by
  by_cases hh : s.last_capture_hash = some (env.phash img)
  · have hsp : shouldProcess env s img = (false, s) := by
      simp [shouldProcess, hh]
    rw [hsp]
    exact ⟨fun _ => ⟨rfl, rfl, rfl⟩, fun _ => rfl, fun hne => absurd hh hne,
           fun ht => Bool.noConfusion ht⟩
  · rcases hpf : s.previous_frame with _ | prev
    · have hsp : shouldProcess env s img = (true,
          { s with last_capture_hash := some (env.phash img),
                   previous_frame := some img }) := by
        simp [shouldProcess, hh, hpf]
      rw [hsp]
      exact ⟨fun hf => Bool.noConfusion hf, fun he => absurd he hh,
             fun _ => rfl, fun _ => rfl⟩
    · by_cases hsh : env.sameShape prev img = true
      · by_cases hd : env.diffCount prev img < changeThreshold
        · have hsp : shouldProcess env s img = (false,
              { s with last_capture_hash := some (env.phash img) }) := by
            simp [shouldProcess, hh, hpf, hsh, hd]
          rw [hsp]
          exact ⟨fun _ => ⟨hpf, rfl, rfl⟩, fun he => absurd he hh,
                 fun _ => rfl, fun ht => Bool.noConfusion ht⟩
        · have hsp : shouldProcess env s img = (true,
              { s with last_capture_hash := some (env.phash img),
                       previous_frame := some img }) := by
            simp [shouldProcess, hh, hpf, hsh, hd]
          rw [hsp]
          exact ⟨fun hf => Bool.noConfusion hf, fun he => absurd he hh,
                 fun _ => rfl, fun _ => rfl⟩
      · have hsp : shouldProcess env s img = (true,
            { s with last_capture_hash := some (env.phash img),
                     previous_frame := some img }) := by
          simp [shouldProcess, hh, hpf, hsh]
        rw [hsp]
        exact ⟨fun hf => Bool.noConfusion hf, fun he => absurd he hh,
               fun _ => rfl, fun _ => rfl⟩

/-- Claim C7, counterexample.  A frame whose perceptual hash differs from the
stored one but whose pixel difference is below the change floor is rejected —
`previous_frame` and the returned frame are the previous accepted one — yet
`last_capture_hash` has already been overwritten with the new frame's hash,
contradicting "all three fields stay unchanged". -/
theorem claim_C7_counterexample :
    (shouldProcess capEnvA capRejState 4).1 = false ∧
    (shouldProcess capEnvA capRejState 4).2.previous_frame = capRejState.previous_frame ∧
    capRejState.last_capture_hash = some 5 ∧
    (shouldProcess capEnvA capRejState 4).2.last_capture_hash = some 4 ∧
    (captureFresh capEnvA capRejState 100 4).1 = some 3 ∧
    (captureFresh capEnvA capRejState 100 4).2.last_capture_time =
      capRejState.last_capture_time := by
  refine ⟨rfl, rfl, rfl, rfl, rfl, rfl⟩

/-- Claim C7, amended: `previous_frame` and `last_capture_time` are updated
only when the new frame is accepted (both the hash and the pixel-difference
check indicate change), and a rejected frame returns the previous accepted
frame with `last_capture_time` unchanged; but `last_capture_hash` is
refreshed as soon as the hash differs from the stored one, even when the
pixel-difference check then rejects the frame.  Only a frame rejected by the
hash check leaves all three fields unchanged. -/
theorem claim_C7_accept_effects :
    (∀ (F : Type) (env : CaptureEnv F) (s : CaptureState F) (img : F),
      ((shouldProcess env s img).1 = false →
        (shouldProcess env s img).2.previous_frame = s.previous_frame ∧
        (shouldProcess env s img).2.last_capture_time = s.last_capture_time) ∧
      (s.last_capture_hash = some (env.phash img) → shouldProcess env s img = (false, s)) ∧
      (s.last_capture_hash ≠ some (env.phash img) →
        (shouldProcess env s img).2.last_capture_hash = some (env.phash img)) ∧
      ((shouldProcess env s img).1 = true →
        (shouldProcess env s img).2.previous_frame = some img)) ∧
    (∀ (F : Type) (env : CaptureEnv F) (s : CaptureState F) (now : Rat) (raw : F),
      ((shouldProcess env s (env.optimize raw)).1 = false →
        (captureFresh env s now raw).1 = s.previous_frame ∧
        (captureFresh env s now raw).2.last_capture_time = s.last_capture_time) ∧
      ((shouldProcess env s (env.optimize raw)).1 = true →
        (captureFresh env s now raw).1 = some (env.optimize raw) ∧
        (captureFresh env s now raw).2.last_capture_time = now)) := by
  constructor
  · intro F env s img
    obtain ⟨c1, c2, c3, c4⟩ := shouldProcess_spec F env s img
    exact ⟨fun hf => ⟨(c1 hf).1, (c1 hf).2.1⟩, c2, c3, c4⟩
  · intro F env s now raw
    constructor
    · intro hf
      obtain ⟨c1, -, -, -⟩ := shouldProcess_spec F env s (env.optimize raw)
      obtain ⟨hprev, htime, -⟩ := c1 hf
      unfold captureFresh
      rw [hf]
      exact ⟨hprev, htime⟩
    · intro ht
      unfold captureFresh
      rw [ht]
      exact ⟨rfl, rfl⟩

/-- Claim C7 witness: the hash-rejection rule applied at a state whose stored
hash already equals the new frame's hash — the state comes back unchanged. -/
theorem claim_C7_witness :
    shouldProcess capEnvA capRejState 5 = (false, capRejState) :=
  (claim_C7_accept_effects.1 Nat capEnvA capRejState 5).2.1 rfl

/-! ## Claim C1 — cache budget and eviction order -/

theorem cmSumSizes_cons {V : Type} (p : String × CMEntry V)
    (l : List (String × CMEntry V)) :
    cmSumSizes (p :: l) = p.2.size + cmSumSizes l := by
  simp [cmSumSizes]

theorem cmSumSizes_aerase {V : Type} {l : List (String × CMEntry V)} {k : String}
    {e : CMEntry V} (h : alookup l k = some e) :
    (cmSumSizes (aerase l k) : Int) = (cmSumSizes l : Int) - e.size := by
  induction l with
  | nil => simp [alookup] at h
  | cons q l ih =>
    rcases q with ⟨a, b⟩
    by_cases hk : a = k
    · subst hk
      simp only [alookup, eq_self_iff_true, if_true, Option.some_inj] at h
      subst h
      simp only [aerase, eq_self_iff_true, if_true, cmSumSizes_cons]
      push_cast
      ring
    · simp only [alookup, hk, if_neg, not_false_iff] at h
      simp only [aerase, hk, if_neg, not_false_iff, cmSumSizes_cons]
      have := ih h
      push_cast at this ⊢
      linarith

theorem cmSumSizes_aupdate {V : Type} {l : List (String × CMEntry V)} {k : String}
    {e : CMEntry V} (nv : CMEntry V) (h : alookup l k = some e) :
    (cmSumSizes (aupdate l k nv) : Int) =
      (cmSumSizes l : Int) - e.size + nv.size := by
  induction l with
  | nil => simp [alookup] at h
  | cons q l ih =>
    rcases q with ⟨a, b⟩
    by_cases hk : a = k
    · subst hk
      simp only [alookup, eq_self_iff_true, if_true, Option.some_inj] at h
      subst h
      simp only [aupdate, eq_self_iff_true, if_true, cmSumSizes_cons]
      push_cast
      ring
    · simp only [alookup, hk, if_neg, not_false_iff] at h
      simp only [aupdate, hk, if_neg, not_false_iff, cmSumSizes_cons]
      have := ih h
      push_cast at this ⊢
      linarith

theorem cmSumSizes_append_one {V : Type} (l : List (String × CMEntry V))
    (p : String × CMEntry V) :
    cmSumSizes (l ++ [p]) = cmSumSizes l + p.2.size := by
  simp [cmSumSizes]

theorem nodupKeys_aerase {β : Type} {l : List (String × β)} (k : String)
    (h : NodupKeys l) : NodupKeys (aerase l k) :=
  List.Nodup.sublist (aerase_keys_sublist l k) h

theorem nodupKeys_aupdate {β : Type} {l : List (String × β)} (k : String) (nv : β)
    (h : NodupKeys l) : NodupKeys (aupdate l k nv) := by
  unfold NodupKeys
  rw [aupdate_keys]
  exact h

theorem alookup_isSome_of_mem_keys {β : Type} {l : List (String × β)} {k : String}
    (h : k ∈ l.map Prod.fst) : (alookup l k).isSome := by
  rcases List.mem_map.mp h with ⟨p, hp, rfl⟩
  exact alookup_isSome_of_mem hp

theorem nodupKeys_append_fresh {β : Type} {l : List (String × β)} {k : String}
    (e : β) (hnd : NodupKeys l) (h : alookup l k = none) :
    NodupKeys (l ++ [(k, e)]) := by
  unfold NodupKeys at hnd ⊢
  rw [List.map_append]
  simp only [List.map_cons, List.map_nil]
  rw [List.nodup_append]
  refine ⟨hnd, List.nodup_singleton k, ?_⟩
  intro x hx hk
  rcases List.mem_singleton.mp hk with rfl
  have hs := alookup_isSome_of_mem_keys hx
  rw [h] at hs
  simp at hs

theorem cmEvictLru_putinv {V : Type} (c : CacheMgr V) (k : String)
    (hnd : NodupKeys c.entries)
    (hle : c.total_size ≤ (cmSumSizes c.entries : Int) - cmSlack c k) :
    NodupKeys (cmEvictLru c).entries ∧
    (cmEvictLru c).total_size ≤
      (cmSumSizes (cmEvictLru c).entries : Int) - cmSlack (cmEvictLru c) k ∧
    (cmEvictLru c).max_size = c.max_size ∧
    (c.entries = [] ∨ (cmEvictLru c).entries.length + 1 = c.entries.length) := by
  rcases hp : cmLruPick c with _ | m
  · have hE : cmEvictLru c = c := by simp [cmEvictLru, hp]
    rw [hE]
    exact ⟨hnd, hle, rfl, Or.inl (listMinBy_eq_none _ _ hp)⟩
  · have hmem : m ∈ c.entries := listMinBy_mem _ _ _ hp
    have hlk : alookup c.entries m.1 = some m.2 := alookup_of_mem_nodup hnd hmem
    have hE : cmEvictLru c =
        { c with entries := aerase c.entries m.1,
                 total_size := c.total_size - (m.2.size : Int) } := by
      simp only [cmEvictLru, hp, hlk]
    rw [hE]
    have hsum := cmSumSizes_aerase hlk
    refine ⟨nodupKeys_aerase m.1 hnd, ?_, rfl,
      Or.inr (aerase_length (by simp [hlk]))⟩
    by_cases hk : m.1 = k
    · have hsl : cmSlack c k = (m.2.size : Int) := by
        unfold cmSlack
        rw [← hk, hlk]
      have hsl2 : cmSlack { c with entries := aerase c.entries m.1, total_size := c.total_size - (m.2.size : Int) } k = 0 := by
        unfold cmSlack
        simp only
        rw [← hk, alookup_aerase_self hnd]
      rw [hsl2]
      simp only
      rw [hsl] at hle
      have hsz : (0 : Int) ≤ (m.2.size : Int) := Int.ofNat_nonneg _
      linarith
    · have hsl2 : cmSlack { c with entries := aerase c.entries m.1, total_size := c.total_size - (m.2.size : Int) } k = cmSlack c k := by
        unfold cmSlack
        simp only
        rw [alookup_aerase_ne hk]
      rw [hsl2]
      simp only
      linarith

theorem cmEvictLoop_putinv {V : Type} (k : String) :
    ∀ (fuel : Nat) (sz : Nat) (c : CacheMgr V),
      NodupKeys c.entries →
      c.total_size ≤ (cmSumSizes c.entries : Int) - cmSlack c k →
      NodupKeys (cmEvictLoop fuel sz c).entries ∧
      (cmEvictLoop fuel sz c).total_size ≤
        (cmSumSizes (cmEvictLoop fuel sz c).entries : Int) -
          cmSlack (cmEvictLoop fuel sz c) k ∧
      (cmEvictLoop fuel sz c).max_size = c.max_size ∧
      (c.entries.length ≤ fuel →
        (cmEvictLoop fuel sz c).total_size + (sz : Int) ≤
            ((cmEvictLoop fuel sz c).max_size : Int) ∨
          (cmEvictLoop fuel sz c).entries = []) := by
  intro fuel
  induction fuel with
  | zero =>
    intro sz c hnd hle
    refine ⟨hnd, hle, rfl, ?_⟩
    intro hlen
    right
    exact List.length_eq_zero.mp (Nat.le_zero.mp hlen)
  | succ fuel ih =>
    intro sz c hnd hle
    by_cases hcond : c.total_size + (sz : Int) > (c.max_size : Int) ∧
        c.entries.isEmpty = false
    · have hE : cmEvictLoop (fuel + 1) sz c = cmEvictLoop fuel sz (cmEvictLru c) := by
        simp only [cmEvictLoop, if_pos hcond]
      obtain ⟨hnd2, hle2, hmax2, hlen2⟩ := cmEvictLru_putinv c k hnd hle
      obtain ⟨a1, a2, a3, a4⟩ := ih sz (cmEvictLru c) hnd2 hle2
      rw [hE]
      refine ⟨a1, a2, a3.trans hmax2, ?_⟩
      intro hlen
      rcases hlen2 with hnil | hsucc
      · exfalso
        rw [hnil] at hcond
        simp at hcond
      · exact a4 (by omega)
    · have hE : cmEvictLoop (fuel + 1) sz c = c := by
        simp only [cmEvictLoop, if_neg hcond]
      rw [hE]
      refine ⟨hnd, hle, rfl, ?_⟩
      intro _
      by_cases hA : c.total_size + (sz : Int) > (c.max_size : Int)
      · right
        have hB : ¬ c.entries.isEmpty = false := fun hb => hcond ⟨hA, hb⟩
        rcases hE2 : c.entries.isEmpty with _ | _
        · exact absurd hE2 hB
        · exact List.isEmpty_iff.mp hE2
      · left
        linarith [not_lt.mp hA]

theorem cmPutSub_putinv {V : Type} (c : CacheMgr V) (k : String)
    (hnd : NodupKeys c.entries)
    (hle : c.total_size ≤ (cmSumSizes c.entries : Int)) :
    NodupKeys (cmPutSub c k).entries ∧
    (cmPutSub c k).total_size ≤
      (cmSumSizes (cmPutSub c k).entries : Int) - cmSlack (cmPutSub c k) k ∧
    (cmPutSub c k).max_size = c.max_size := by
  rcases hl : alookup c.entries k with _ | e
  · have hE : cmPutSub c k = c := by simp [cmPutSub, hl]
    rw [hE]
    have hsl : cmSlack c k = 0 := by unfold cmSlack; rw [hl]
    rw [hsl]
    exact ⟨hnd, by linarith, rfl⟩
  · have hE : cmPutSub c k = { c with total_size := c.total_size - (e.size : Int) } := by
      simp [cmPutSub, hl]
    rw [hE]
    have hsl : cmSlack { c with total_size := c.total_size - (e.size : Int) } k =
        (e.size : Int) := by
      unfold cmSlack
      simp only
      rw [hl]
    rw [hsl]
    exact ⟨hnd, by simp only; linarith, rfl⟩

theorem cmPutInsert_inv {V : Type} (c : CacheMgr V) (k : String) (v : V) (sz : Nat)
    (t : Rat) (hnd : NodupKeys c.entries)
    (hle : c.total_size ≤ (cmSumSizes c.entries : Int) - cmSlack c k) :
    NodupKeys (cmPutInsert c k v sz t).entries ∧
    (cmPutInsert c k v sz t).total_size ≤
      (cmSumSizes (cmPutInsert c k v sz t).entries : Int) ∧
    (cmPutInsert c k v sz t).max_size = c.max_size ∧
    (cmPutInsert c k v sz t).total_size = c.total_size + (sz : Int) := by
  rcases hl : alookup c.entries k with _ | e
  · have hE : cmPutInsert c k v sz t =
        { c with entries := c.entries ++ [(k, ⟨v, sz, t⟩)],
                 total_size := c.total_size + (sz : Int) } := by
      simp only [cmPutInsert, hl]
    rw [hE]
    have hsl : cmSlack c k = 0 := by unfold cmSlack; rw [hl]
    rw [hsl] at hle
    refine ⟨nodupKeys_append_fresh _ hnd hl, ?_, rfl, rfl⟩
    simp only
    rw [cmSumSizes_append_one]
    push_cast
    linarith
  · have hE : cmPutInsert c k v sz t =
        { c with entries := aupdate c.entries k ⟨v, sz, t⟩,
                 total_size := c.total_size + (sz : Int) } := by
      simp only [cmPutInsert, hl]
    rw [hE]
    have hsl : cmSlack c k = (e.size : Int) := by unfold cmSlack; rw [hl]
    rw [hsl] at hle
    refine ⟨nodupKeys_aupdate k _ hnd, ?_, rfl, rfl⟩
    simp only
    rw [cmSumSizes_aupdate (⟨v, sz, t⟩ : CMEntry V) hl]
    simp only
    linarith

theorem cmPut_bound {V : Type} (c : CacheMgr V) (k : String) (v : V) (sz : Nat)
    (t : Rat) (hnd : NodupKeys c.entries)
    (hle : c.total_size ≤ (cmSumSizes c.entries : Int)) :
    NodupKeys (cmPut c k v sz t).entries ∧
    (cmPut c k v sz t).total_size ≤ (cmSumSizes (cmPut c k v sz t).entries : Int) ∧
    (cmPut c k v sz t).max_size = c.max_size ∧
    (sz ≤ c.max_size → (cmPut c k v sz t).total_size ≤ (c.max_size : Int)) := by
  obtain ⟨s1, s2, s3⟩ := cmPutSub_putinv c k hnd hle
  obtain ⟨l1, l2, l3, l4⟩ :=
    cmEvictLoop_putinv k (cmPutSub c k).entries.length sz (cmPutSub c k) s1 s2
  obtain ⟨i1, i2, i3, i4⟩ :=
    cmPutInsert_inv (cmEvictLoop (cmPutSub c k).entries.length sz (cmPutSub c k))
      k v sz t l1 l2
  refine ⟨i1, i2, by rw [cmPut] at *; rw [i3, l3, s3], ?_⟩
  intro hsz
  have hpost := l4 le_rfl
  rw [cmPut, i4]
  rcases hpost with hok | hnil
  · rw [l3, s3] at hok
    linarith
  · have hslack0 : cmSlack (cmEvictLoop (cmPutSub c k).entries.length sz
        (cmPutSub c k)) k = 0 := by
      unfold cmSlack
      rw [hnil]
      rfl
    rw [hnil, hslack0] at l2
    simp [cmSumSizes] at l2
    have hsz2 : (sz : Int) ≤ (c.max_size : Int) := by exact_mod_cast hsz
    linarith

theorem cmGet_inv {V : Type} (c : CacheMgr V) (k : String) (t : Rat)
    (hnd : NodupKeys c.entries)
    (hle : c.total_size ≤ (cmSumSizes c.entries : Int)) :
    NodupKeys (cmGet c k t).2.entries ∧
    (cmGet c k t).2.total_size ≤ (cmSumSizes (cmGet c k t).2.entries : Int) ∧
    (cmGet c k t).2.max_size = c.max_size ∧
    (cmGet c k t).2.total_size = c.total_size := by
  rcases hl : alookup c.entries k with _ | e
  · have hE : (cmGet c k t).2 = c := by simp [cmGet, hl]
    rw [hE]
    exact ⟨hnd, hle, rfl, rfl⟩
  · have hE : (cmGet c k t).2 =
        { c with entries := aupdate c.entries k { e with access := t } } := by
      simp [cmGet, hl]
    rw [hE]
    refine ⟨nodupKeys_aupdate k _ hnd, ?_, rfl, rfl⟩
    simp only
    rw [cmSumSizes_aupdate ({ e with access := t } : CMEntry V) hl]
    simp only
    linarith

theorem cmRun_inv {V : Type} :
    ∀ (ops : List (CMOp V)) (c : CacheMgr V),
      NodupKeys c.entries →
      c.total_size ≤ (cmSumSizes c.entries : Int) →
      c.total_size ≤ (c.max_size : Int) →
      cmValidOps c.max_size ops →
      NodupKeys (cmRun c ops).entries ∧
      (cmRun c ops).total_size ≤ (cmSumSizes (cmRun c ops).entries : Int) ∧
      (cmRun c ops).total_size ≤ ((cmRun c ops).max_size : Int) ∧
      (cmRun c ops).max_size = c.max_size := by
  intro ops
  induction ops with
  | nil =>
    intro c h1 h2 h3 _
    exact ⟨h1, h2, h3, rfl⟩
  | cons op ops ih =>
    intro c h1 h2 h3 hops
    have hopsTail : cmValidOps c.max_size ops :=
      fun o ho => hops o (List.mem_cons_of_mem op ho)
    rcases op with ⟨k, t⟩ | ⟨k, v, sz, t⟩
    · obtain ⟨g1, g2, g3, g4⟩ := cmGet_inv c k t h1 h2
      have := ih (cmGet c k t).2 g1 g2 (by rw [g3, g4]; exact h3)
        (by rw [g3]; exact hopsTail)
      simpa [cmRun, cmStep, g3] using this
    · have hsz : sz ≤ c.max_size := hops (CMOp.put k v sz t) (List.mem_cons_self _ _)
      obtain ⟨p1, p2, p3, p4⟩ := cmPut_bound c k v sz t h1 h2
      have := ih (cmPut c k v sz t) p1 p2 (by rw [p3]; exact p4 hsz)
        (by rw [p3]; exact hopsTail)
      simpa [cmRun, cmStep, p3] using this

/-- Claim C1, counterexample.  A single put of an item larger than the byte
budget (200 bytes into a 100-byte cache) completes with
`total_size = 200 > max_size`: the eviction loop stops once the cache is
empty and the oversized entry is inserted regardless. -/
theorem claim_C1_counterexample :
    (cmPut (cmEmpty Nat 100) "k" 0 200 0).total_size = 200 ∧
    (cmEmpty Nat 100).max_size = 100 ∧
    ¬ ((200 : Int) ≤ (100 : Int)) := by
  refine ⟨rfl, rfl, by decide⟩

/-- Claim C1, amended: for every sequence of put/get operations from an empty
cache in which every inserted item fits the budget (`size_bytes ≤ max_size`),
`total_size` never exceeds `max_size` after each operation; an item larger
than the budget breaks the bound.  Eviction order holds as claimed: the LRU
`CacheManager` always removes an entry whose access time is minimal (and
subtracts exactly its recorded size), and the LFU `ThreadSafeCache` always
removes an entry whose access count is minimal. -/
theorem claim_C1_cache_eviction :
    (∀ (V : Type) (max : Nat) (ops : List (CMOp V)), cmValidOps max ops →
      (cmRun (cmEmpty V max) ops).total_size ≤ (max : Int)) ∧
    (∀ (V : Type) (c : CacheMgr V) (m : String × CMEntry V),
      NodupKeys c.entries → cmLruPick c = some m →
      (∀ p ∈ c.entries, m.2.access ≤ p.2.access) ∧
      (cmEvictLru c).entries = aerase c.entries m.1 ∧
      (cmEvictLru c).total_size = c.total_size - (m.2.size : Int)) ∧
    (∀ (V : Type) (c : TSCache V) (m : String × TSEntry V),
      tsLfuPick c = some m →
      (∀ p ∈ c.entries, m.2.count ≤ p.2.count) ∧
      (tsEvict c).entries = aerase c.entries m.1) := by
  refine ⟨?_, ?_, ?_⟩
  · intro V max ops hops
    have h0 : NodupKeys (cmEmpty V max).entries := by simp [cmEmpty, NodupKeys]
    have h1 : (cmEmpty V max).total_size ≤ (cmSumSizes (cmEmpty V max).entries : Int) := by
      simp [cmEmpty, cmSumSizes]
    have h2 : (cmEmpty V max).total_size ≤ ((cmEmpty V max).max_size : Int) := by
      simp [cmEmpty]
    obtain ⟨-, -, r3, r4⟩ := cmRun_inv ops (cmEmpty V max) h0 h1 h2 hops
    rw [r4] at r3
    exact r3
  · intro V c m hnd hp
    have hmem : m ∈ c.entries := listMinBy_mem _ _ _ hp
    have hlk : alookup c.entries m.1 = some m.2 := alookup_of_mem_nodup hnd hmem
    refine ⟨listMinBy_le _ _ _ hp, ?_, ?_⟩
    · simp [cmEvictLru, hp, hlk]
    · simp [cmEvictLru, hp, hlk]
  · intro V c m hp
    exact ⟨listMinBy_le _ _ _ hp, by simp [tsEvict, hp]⟩

/-- Claim C1 witness: two in-budget puts into a two-entry-budget cache stay
within the byte budget, and the LFU pick at a concrete two-entry cache
removes the lowest-count entry. -/
theorem claim_C1_witness :
    (cmRun (cmEmpty Nat 10) [CMOp.put "a" 1 6 0, CMOp.put "b" 2 6 1]).total_size
        ≤ (10 : Int) ∧
    (tsEvict (⟨[("a", ⟨1, 2⟩), ("b", ⟨2, 0⟩)], 10, 0, 0⟩ : TSCache Nat)).entries =
      aerase [("a", ⟨1, 2⟩), ("b", ⟨2, 0⟩)] "b" :=
  ⟨claim_C1_cache_eviction.1 Nat 10 [CMOp.put "a" 1 6 0, CMOp.put "b" 2 6 1]
      (by intro op hop
          rcases List.mem_cons.mp hop with rfl | hop2
          · exact by norm_num
          · rcases List.mem_singleton.mp hop2 with rfl
            exact by norm_num),
   (claim_C1_cache_eviction.2.2 Nat ⟨[("a", ⟨1, 2⟩), ("b", ⟨2, 0⟩)], 10, 0, 0⟩
      ("b", ⟨2, 0⟩) (by decide)).2⟩

end NoProct
